import Mathlib

/-!
Verification of the mask-editing and cross-slice interpolation engine of
the ContouringQuest annotation tool (`app/contouring/tf_contouring.py`).

The Python engine keeps, per ROI name, a sparse mapping from slice index to
a 2D boolean mask (`roi_masks`), a bounded undo/redo history (deques of
depth 40), an ephemeral preview store (`preview_masks`), and the transient
state of the stroke being drawn (`temp_mask`, `_drawing_undo_state`,
`_prev_mask_snapshot`, `last_draw_pos`).

This file gives a shallow embedding of that engine:
* Python dicts become association lists (first-match lookup, in-place
  replacement on insert, append on fresh insert — the same key semantics
  as a Python `dict`);
* numpy 2D boolean arrays become `List (List Bool)`;
* the morphology used by the engine (`binary_dilation`, `binary_erosion`,
  `binary_fill_holes` with the default cross connectivity,
  `distance_transform_edt`) is implemented exactly on those grids; the
  signed-distance blend `(1-alpha)*d0 + alpha*d1 <= 0` is decided exactly
  over integers (the float computation of the source is idealised as real
  arithmetic, as usual for a shallow embedding);
* the event handlers (`start_drawing`, `continue_drawing`,
  `finish_drawing`, `undo_last_edit`, `redo_last_edit`,
  `interpolate_all_slices`, `recompute_preview_for_current_roi`,
  `confirm_preview_to_roi`, `confirm_preview_current_slice`,
  `change_roi_name`, `update_axial_slice`) become pure state transformers
  on an `EditorState` record.
-/

namespace CQ

/-! ## Association lists with Python-dict key semantics -/

section AList

variable {κ : Type} {α : Type} [DecidableEq κ]

/-- First-match lookup, the value semantics of `d[k]` / `d.get(k)`. -/
def alookup : List (κ × α) → κ → Option α
  | [], _ => none
  | (k', v) :: t, k => if k' = k then some v else alookup t k

/-- `d[k] = v`: replace in place if the key is present, else append
(the insertion-order behaviour of a Python dict). -/
def ainsert : List (κ × α) → κ → α → List (κ × α)
  | [], k, v => [(k, v)]
  | (k', v') :: t, k, v =>
      if k' = k then (k, v) :: t else (k', v') :: ainsert t k v

/-- `del d[k]` (a no-op when the key is absent). -/
def aerase (l : List (κ × α)) (k : κ) : List (κ × α) :=
  l.filter (fun p => decide (p.1 ≠ k))

@[simp] theorem alookup_nil (k : κ) : alookup ([] : List (κ × α)) k = none := rfl

theorem alookup_ainsert_self (l : List (κ × α)) (k : κ) (v : α) :
    alookup (ainsert l k v) k = some v := by
  induction l with
  | nil => simp [ainsert, alookup]
  | cons p t ih =>
      obtain ⟨k', v'⟩ := p
      by_cases h : k' = k <;> simp [ainsert, alookup, h, ih]

theorem alookup_ainsert_ne (l : List (κ × α)) (k k' : κ) (v : α) (h : k' ≠ k) :
    alookup (ainsert l k v) k' = alookup l k' := by
  have hk : ¬ (k = k') := fun hh => h hh.symm
  induction l with
  | nil => simp [ainsert, alookup, hk]
  | cons p t ih =>
      obtain ⟨k₀, v₀⟩ := p
      by_cases h₀ : k₀ = k
      · subst h₀
        simp [ainsert, alookup, hk]
      · by_cases h₁ : k₀ = k' <;> simp [ainsert, alookup, h₀, h₁, h, ih]

theorem alookup_aerase_self (l : List (κ × α)) (k : κ) :
    alookup (aerase l k) k = none := by
  induction l with
  | nil => rfl
  | cons p t ih =>
      obtain ⟨k₀, v₀⟩ := p
      by_cases h : k₀ = k
      · simpa [aerase, h] using ih
      · simpa [aerase, alookup, h] using ih

theorem alookup_aerase_ne (l : List (κ × α)) (k k' : κ) (h : k' ≠ k) :
    alookup (aerase l k) k' = alookup l k' := by
  have hk : ¬ (k = k') := fun hh => h hh.symm
  induction l with
  | nil => rfl
  | cons p t ih =>
      obtain ⟨k₀, v₀⟩ := p
      by_cases h₀ : k₀ = k
      · subst h₀
        simpa [aerase, alookup, hk] using ih
      · by_cases h₁ : k₀ = k'
        · subst h₁
          simp [aerase, alookup, h₀]
        · simpa [aerase, alookup, h₀, h₁] using ih

theorem mem_ainsert (l : List (κ × α)) (k : κ) (v : α) (x : κ × α)
    (hx : x ∈ ainsert l k v) : x = (k, v) ∨ x ∈ l := by
  induction l with
  | nil => simpa [ainsert] using hx
  | cons p t ih =>
      obtain ⟨k₀, v₀⟩ := p
      by_cases h : k₀ = k
      · simp [ainsert, h] at hx
        rcases hx with h' | h' <;> simp [h']
      · simp [ainsert, h] at hx
        rcases hx with h' | h'
        · simp [h']
        · rcases ih h' with h'' | h'' <;> simp [h'']

theorem mem_aerase (l : List (κ × α)) (k : κ) (x : κ × α)
    (hx : x ∈ aerase l k) : x ∈ l :=
  List.mem_of_mem_filter hx

theorem alookup_mem (l : List (κ × α)) (k : κ) (v : α)
    (h : alookup l k = some v) : (k, v) ∈ l := by
  induction l with
  | nil => simp [alookup] at h
  | cons p t ih =>
      obtain ⟨k₀, v₀⟩ := p
      by_cases h₀ : k₀ = k
      · subst h₀
        simp [alookup] at h
        simp [h]
      · simp [alookup, h₀] at h
        simp [ih h]

end AList

/-! ## 2D boolean masks (numpy `bool` arrays) -/

/-- A 2D boolean mask, row-major, mirroring a numpy array of shape `(h, w)`. -/
abbrev Mask := List (List Bool)

/-- Number of rows of a mask. -/
def mheight (m : Mask) : Nat := m.length

/-- Number of columns of a mask (all rows have equal length for masks built
by the engine). -/
def mwidth (m : Mask) : Nat := (m.headD []).length

/-- Read pixel `(i, j)`; positions outside the grid read as `False`
(the `border_value=0` convention of the scipy morphology the engine uses). -/
def getPix (m : Mask) (i j : Int) : Bool :=
  if i < 0 ∨ j < 0 then false
  else ((m.getD i.toNat []).getD j.toNat false)

/-- Write pixel `(i, j)` (in-bounds writes only; `List.set` is a no-op
out of range, matching how the engine always filters indices first). -/
def setPix (m : Mask) (i j : Nat) (v : Bool) : Mask :=
  m.set i ((m.getD i []).set j v)

/-- Build an `h × w` mask from a pixel function. -/
def mkMask (h w : Nat) (f : Nat → Nat → Bool) : Mask :=
  (List.range h).map (fun i => (List.range w).map (fun j => f i j))

/-- `np.any(mask)`. -/
def anyTrue (m : Mask) : Bool := m.any (fun row => row.any (fun b => b))

/-- `np.zeros((h, w), dtype=bool)`. -/
def zerosMask (h w : Nat) : Mask := mkMask h w (fun _ _ => false)

/-! ### Morphology (`scipy.ndimage`) -/

/-- The offsets of the disk structuring element of radius `rad`:
`(xx*xx + yy*yy) <= rad*rad` over the `(2*rad+1)²` window, exactly as
`np.ogrid[-rad:rad+1, -rad:rad+1]` builds it (also the precomputed brush
kernel of `_precompute_brush_kernels`). -/
def diskOffsets (rad : Nat) : List (Int × Int) :=
  ((List.range (2 * rad + 1)).flatMap (fun a =>
    (List.range (2 * rad + 1)).map (fun b => ((a : Int) - rad, (b : Int) - rad)))).filter
    (fun o => decide (o.1 * o.1 + o.2 * o.2 ≤ (rad : Int) * rad))

/-- The default cross-shaped structuring element
(`generate_binary_structure(2, 1)`). -/
def crossOffsets : List (Int × Int) := [(0, 0), (1, 0), (-1, 0), (0, 1), (0, -1)]

/-- `binary_dilation(m, structure=se, iterations=1)` with `border_value=0`. -/
def dilate (m : Mask) (se : List (Int × Int)) : Mask :=
  mkMask (mheight m) (mwidth m)
    (fun i j => se.any (fun o => getPix m ((i : Int) - o.1) ((j : Int) - o.2)))

/-- `binary_erosion(m, structure=se, iterations=1)` with `border_value=0`. -/
def erode (m : Mask) (se : List (Int × Int)) : Mask :=
  mkMask (mheight m) (mwidth m)
    (fun i j => se.all (fun o => getPix m ((i : Int) + o.1) ((j : Int) + o.2)))

/-- Pixelwise complement `~m`. -/
def mnot (m : Mask) : Mask :=
  mkMask (mheight m) (mwidth m) (fun i j => ! getPix m i j)

/-- Pixelwise conjunction `a & b`. -/
def mand (a b : Mask) : Mask :=
  mkMask (mheight a) (mwidth a) (fun i j => getPix a i j && getPix b i j)

/-- Pixelwise disjunction `a | b`. -/
def mor (a b : Mask) : Mask :=
  mkMask (mheight a) (mwidth a) (fun i j => getPix a i j || getPix b i j)

/-- Iterate a function `n` times. -/
def iterN {α : Type} (f : α → α) : Nat → α → α
  | 0, x => x
  | n + 1, x => iterN f n (f x)

/-- One step of background flood fill from the grid border: grow the
reached set through 4-connected background pixels. -/
def reachStep (m : Mask) (r : Mask) : Mask :=
  mkMask (mheight m) (mwidth m) (fun i j =>
    getPix r i j ||
      (! getPix m i j &&
        crossOffsets.any (fun o => getPix r ((i : Int) + o.1) ((j : Int) + o.2))))

/-- The background pixels 4-connected to the grid border (fixpoint of
`reachStep`, reached after at most `h*w` steps). -/
def outsideReach (m : Mask) : Mask :=
  let h := mheight m
  let w := mwidth m
  let seed := mkMask h w (fun i j =>
    ! getPix m i j && (i = 0 || i = h - 1 || j = 0 || j = w - 1))
  iterN (reachStep m) (h * w) seed

/-- `binary_fill_holes(m)` (default cross connectivity): the input plus
every background pixel not 4-connected to the border. -/
def fillHoles (m : Mask) : Mask :=
  let r := outsideReach m
  mkMask (mheight m) (mwidth m) (fun i j => getPix m i j || ! getPix r i j)

/-! ### Signed distance fields (`_compute_signed_distance_transform`)

`distance_transform_edt` yields exact Euclidean distances `√(Δi² + Δj²)`.
The engine only ever compares the blended field with `0`, so we carry each
field value symbolically as a sign and a squared distance and decide the
comparison `a·√x + b·√y ≤ 0` exactly over the integers. -/

/-- All grid coordinates of an `h × w` grid. -/
def cellList (h w : Nat) : List (Nat × Nat) :=
  (List.range h).flatMap (fun i => (List.range w).map (fun j => (i, j)))

/-- Squared Euclidean distance from `(i, j)` to the nearest pixel of the
grid whose value is `target` (a large sentinel when no such pixel exists,
which the engine's guards make unreachable). -/
def distSqToVal (m : Mask) (i j : Int) (target : Bool) : Nat :=
  let cands := (cellList (mheight m) (mwidth m)).filterMap (fun c =>
    if getPix m c.1 c.2 = target then
      some (((i - c.1) * (i - c.1) + (j - c.2) * (j - c.2)).toNat)
    else none)
  match cands with
  | [] => (mheight m + mwidth m) * (mheight m + mwidth m) + 1
  | d :: ds => ds.foldl Nat.min d

/-- The signed distance field of `_compute_signed_distance_transform` at one
pixel, as `(isInside, squaredDistance)`: the field value is
`-√sq` inside the mask and `+√sq` outside it. -/
def sdtPix (m : Mask) (i j : Int) : Bool × Nat :=
  if getPix m i j then (true, distSqToVal m i j false)
  else (false, distSqToVal m i j true)

/-- Decides `a·√x + b·√y ≤ 0` for integers `a b` and naturals `x y`. -/
def sqrtCombLE0 (a : Int) (x : Nat) (b : Int) (y : Nat) : Bool :=
  if a ≤ 0 ∧ b ≤ 0 then true
  else if 0 ≤ a ∧ 0 ≤ b then a * a * x = 0 ∧ b * b * y = 0
  else if 0 ≤ a then a * a * (x : Int) ≤ b * b * (y : Int)
  else b * b * (y : Int) ≤ a * a * (x : Int)

/-- The thresholded blended field
`(1-alpha)*start_dist + alpha*end_dist <= 0` at slice `z` between seed
slices `s0 < s1` (`alpha = (z-s0)/(s1-s0)`; the inequality is multiplied
through by `s1-s0 > 0`). -/
def interpMask (m0 m1 : Mask) (s0 s1 z : Nat) : Mask :=
  mkMask (mheight m0) (mwidth m0) (fun i j =>
    let p0 := sdtPix m0 i j
    let p1 := sdtPix m1 i j
    let a : Int := ((s1 : Int) - z) * (if p0.1 then -1 else 1)
    let b : Int := ((z : Int) - s0) * (if p1.1 then -1 else 1)
    sqrtCombLE0 a p0.2 b p1.2)

/-- The light shape cleanup applied to a non-empty interpolated mask:
one `binary_erosion` followed by one `binary_dilation`, default structure. -/
def interpCleanup (m : Mask) : Mask := dilate (erode m crossOffsets) crossOffsets

/-! ### ContourCloser (`finish_drawing`, brush branch) -/

/-- The closed-loop fill pipeline of `finish_drawing` at a given disk
radius: dilate the stroke, fill holes, keep only holes that did not
already exist in the previously committed mask, OR them in, erode back. -/
def contourCloseWith (rad : Nat) (temp prev : Mask) : Mask :=
  let se := diskOffsets rad
  let work := dilate temp se
  let prevHoles := mand (fillHoles prev) (mnot prev)
  let filled := fillHoles work
  let newHoles := mand (mand filled (mnot work)) (mnot prevHoles)
  let work2 := mor work newHoles
  erode work2 se

/-- The pipeline as the source computes it: radius `max(1, size // 2)`. -/
def contourCloseCode (temp prev : Mask) (size : Nat) : Mask :=
  contourCloseWith (max 1 (size / 2)) temp prev

/-- The pipeline as the specification words it: a disk of radius
`⌊toolRadius/2⌋` (no lower clamp). Kept separate from `contourCloseCode`
so that the two can be compared. -/
def contourCloseSpecText (temp prev : Mask) (size : Nat) : Mask :=
  contourCloseWith (size / 2) temp prev

/-! ### Rounding helpers for the line rasterizer -/

/-- `⌊√n⌋`, the value of `int(np.hypot(dr, dc))` for integer deltas with
`n = dr² + dc²` (the largest `k ≤ n` with `k*k ≤ n`). -/
def floorSqrt (n : Nat) : Nat :=
  ((List.range (n + 1)).filter (fun k => decide (k * k ≤ n))).foldl max 0

/-- `round(√n)` (the value the specification's `round(distance)` takes on
integer deltas): `⌊√n⌋ + 1` exactly when `√n ≥ ⌊√n⌋ + 1/2`, that is when
`(2⌊√n⌋+1)² ≤ 4n`. -/
def roundSqrt (n : Nat) : Nat :=
  let s := floorSqrt n
  if (2 * s + 1) * (2 * s + 1) ≤ 4 * n then s + 1 else s

/-- Python's `round` on an exact rational: round half to even. -/
def pyRound (q : Rat) : Int :=
  let f := q.floor
  let r := q - f
  if r < 1 / 2 then f
  else if 1 / 2 < r then f + 1
  else if f % 2 = 0 then f else f + 1

/-! ## The editor state -/

/-- ROI names are plain string keys. -/
abbrev RoiName := String

/-- `slice index → Mask2D`, one ROI's entry of `roi_masks`. -/
abbrev SliceMasks := List (Nat × Mask)

/-- `roi_masks : ROI name → (slice index → Mask2D)`. -/
abbrev RoiMasks := List (RoiName × SliceMasks)

/-- An undo/redo stack element: a single `(roi, slice, prior)` tuple or a
grouped `{"group": True, "changes": [...]}` record. -/
inductive UndoEntry : Type
  | single (roi : RoiName) (z : Nat) (prior : Option Mask)
  | group (changes : List (RoiName × Nat × Option Mask))
deriving DecidableEq

/-- `operation_mode`: which tool button is active. -/
inductive OperationMode : Type
  | brush | eraser | panZoom | wwWl
deriving DecidableEq

/-- `current_tool_mode`: what a stroke actually does. -/
inductive ToolMode : Type
  | brush | eraser
deriving DecidableEq

/-- The transient state of an active stroke: `temp_mask`,
`_drawing_undo_state`, `_prev_mask_snapshot` and `last_draw_pos`
(`drawing = some _` plays the role of `is_drawing`). -/
structure DrawState : Type where
  temp : Mask
  undoState : RoiName × Nat × Option Mask
  prevSnapshot : Mask
  lastDrawPos : Option (Nat × Nat)
deriving DecidableEq

/-- The mutable state of the contouring engine (one loaded volume with
in-plane dimensions `height × width`). -/
structure EditorState : Type where
  height : Nat
  width : Nat
  roi_masks : RoiMasks
  undo_stack : List UndoEntry      -- head = most recent (deque right end)
  redo_stack : List UndoEntry
  preview_masks : List (Nat × Mask)
  roi_color_map : List (RoiName × String)
  roi_visibility : List (RoiName × Bool)
  current_roi_name : RoiName
  current_axial : Nat
  operation_mode : OperationMode
  current_tool_mode : ToolMode
  brush_size : Nat
  eraser_size : Nat
  auto_preview_enabled : Bool
  game_lock_roi : Bool
  drawing : Option DrawState
deriving DecidableEq

/-- Two-level lookup `roi_masks[roi][z]`. -/
def lookup2 (rm : RoiMasks) (roi : RoiName) (z : Nat) : Option Mask :=
  (alookup rm roi).bind (fun sm => alookup sm z)

/-- `deque(maxlen=40).append`: push on the right, evicting the oldest
entry (here: the list tail end) beyond depth 40. -/
def pushStack (e : UndoEntry) (s : List UndoEntry) : List UndoEntry :=
  (e :: s).take 40

/-- `if roi not in roi_masks: roi_masks[roi] = {}`. -/
def ensureRoi (rm : RoiMasks) (roi : RoiName) : RoiMasks :=
  match alookup rm roi with
  | some _ => rm
  | none => ainsert rm roi []

/-- `_apply_temp_mask_to_roi`: store the working mask at
`(current ROI, current slice)`, deleting the key when the mask is
entirely false. -/
def applyTempMask (rm : RoiMasks) (roi : RoiName) (z : Nat) (temp : Mask) : RoiMasks :=
  let rm := ensureRoi rm roi
  let sm := (alookup rm roi).getD []
  if anyTrue temp then ainsert rm roi (ainsert sm z temp)
  else ainsert rm roi (aerase sm z)

/-- Restore one `(roi, z)` pair to a recorded prior value: delete the key
when the prior was absence, else write the prior mask back. -/
def restoreMask (rm : RoiMasks) (roi : RoiName) (z : Nat) (prior : Option Mask) : RoiMasks :=
  let rm := ensureRoi rm roi
  let sm := (alookup rm roi).getD []
  match prior with
  | none => ainsert rm roi (aerase sm z)
  | some m => ainsert rm roi (ainsert sm z m)

/-- The body of the grouped undo/redo loop: walk the recorded changes in
order, recording each pair's current value (for the mirror stack entry)
and then restoring the recorded value. -/
def groupStep (acc : RoiMasks × List (RoiName × Nat × Option Mask))
    (c : RoiName × Nat × Option Mask) :
    RoiMasks × List (RoiName × Nat × Option Mask) :=
  (restoreMask acc.1 c.1 c.2.1 c.2.2, acc.2 ++ [(c.1, c.2.1, lookup2 acc.1 c.1 c.2.1)])

def groupApply (changes : List (RoiName × Nat × Option Mask)) (rm : RoiMasks) :
    RoiMasks × List (RoiName × Nat × Option Mask) :=
  changes.foldl groupStep (rm, [])

/-! ## SliceInterpolator and PreviewEngine -/

/-- The slice indices of a ROI holding a non-empty mask, ascending
(`sorted([z for z, m in roi_data.items() if m is not None and np.any(m)])`). -/
def seedSlices (sm : SliceMasks) : List Nat :=
  List.insertionSort (· ≤ ·)
    (sm.filterMap (fun p => if anyTrue p.2 then some p.1 else none))

/-- Adjacent pairs of the ascending seed list. -/
def consecPairs (l : List Nat) : List (Nat × Nat) := l.zip l.tail

/-- The intermediate slice indices strictly between `s0` and `s1`. -/
def rangeOpen (s0 s1 : Nat) : List Nat := List.range' (s0 + 1) (s1 - s0 - 1)

/-- The interpolated mask for one intermediate slice, after the cleanup
applied to non-empty results. -/
def smartInterpAt (m0 m1 : Mask) (s0 s1 z : Nat) : Mask :=
  let im0 := interpMask m0 m1 s0 s1 z
  if anyTrue im0 then interpCleanup im0 else im0

def smartStep (m0 m1 : Mask) (s0 s1 : Nat)
    (acc : SliceMasks × Nat × List (Nat × Option Mask)) (z : Nat) :
    SliceMasks × Nat × List (Nat × Option Mask) :=
  let im := smartInterpAt m0 m1 s0 s1 z
  let prev := alookup acc.1 z
  if anyTrue im then (ainsert acc.1 z im, acc.2.1 + 1, acc.2.2 ++ [(z, prev)])
  else
    match alookup acc.1 z with
    | some _ => (aerase acc.1 z, acc.2.1, acc.2.2 ++ [(z, prev)])
    | none => acc

/-- `_perform_smart_interpolation`: interpolate every slice strictly
between `s0` and `s1`, writing non-empty results and deleting entries
that became empty; returns the updated slice map, the number of slices
written, and the `(slice, prior)` change list for the undo group. -/
def performSmart (sm : SliceMasks) (s0 s1 : Nat) :
    SliceMasks × Nat × List (Nat × Option Mask) :=
  match alookup sm s0, alookup sm s1 with
  | some m0, some m1 =>
    if anyTrue m0 && anyTrue m1 then
      (rangeOpen s0 s1).foldl (smartStep m0 m1 s0 s1) (sm, 0, [])
    else (sm, 0, [])
  | _, _ => (sm, 0, [])

/-- The inner loop of `recompute_preview_for_current_roi` for one seed
pair: store each non-empty interpolated slice in the preview, but only
when the ROI has no non-empty committed mask there. -/
def previewStep (sm : SliceMasks) (m0 m1 : Mask) (s0 s1 : Nat)
    (pm : List (Nat × Mask)) (z : Nat) : List (Nat × Mask) :=
  let im0 := interpMask m0 m1 s0 s1 z
  if anyTrue im0 then
    let im := interpCleanup im0
    if (match alookup sm z with | none => true | some mz => ! anyTrue mz) then
      ainsert pm z im
    else pm
  else pm

def previewPairFill (sm : SliceMasks) (pm : List (Nat × Mask)) (m0 m1 : Mask)
    (s0 s1 : Nat) : List (Nat × Mask) :=
  (rangeOpen s0 s1).foldl (previewStep sm m0 m1 s0 s1) pm

/-- The seed-pair loop of `recompute_preview_for_current_roi`. -/
def pairStep (sm : SliceMasks) (pm : List (Nat × Mask)) (p : Nat × Nat) :
    List (Nat × Mask) :=
  if p.2 - p.1 ≤ 1 then pm
  else
    match alookup sm p.1, alookup sm p.2 with
    | some m0, some m1 => previewPairFill sm pm m0 m1 p.1 p.2
    | _, _ => pm

def fillPreviewPairs (sm : SliceMasks) (pairs : List (Nat × Nat)) : List (Nat × Mask) :=
  pairs.foldl (pairStep sm) []

/-- `recompute_preview_for_current_roi`: clear the preview store and
recompute it from the committed masks of the current ROI (a no-op beyond
the clearing when auto-preview is off, the ROI is absent, or fewer than
two seed slices exist). -/
def recomputePreview (st : EditorState) : EditorState :=
  if ! st.auto_preview_enabled then { st with preview_masks := [] }
  else
    match alookup st.roi_masks st.current_roi_name with
    | none => { st with preview_masks := [] }
    | some sm =>
      let seeds := seedSlices sm
      if seeds.length < 2 then { st with preview_masks := [] }
      else { st with preview_masks := fillPreviewPairs sm (consecPairs seeds) }

/-! ## UndoEngine (`undo_last_edit` / `redo_last_edit`) -/

/-- `undo_last_edit`: pop the newest entry, push its mirror on the redo
stack, restore the recorded prior state(s), recompute the preview. -/
def undo (st : EditorState) : EditorState :=
  match st.undo_stack with
  | [] => st
  | e :: rest =>
    match e with
    | .single roi z prior =>
      let curr := lookup2 st.roi_masks roi z
      recomputePreview { st with
        roi_masks := restoreMask st.roi_masks roi z prior,
        undo_stack := rest,
        redo_stack := pushStack (.single roi z curr) st.redo_stack }
    | .group changes =>
      let a := groupApply changes st.roi_masks
      recomputePreview { st with
        roi_masks := a.1,
        undo_stack := rest,
        redo_stack := pushStack (.group a.2) st.redo_stack }

/-- `redo_last_edit`: the mirror of `undo`. -/
def redo (st : EditorState) : EditorState :=
  match st.redo_stack with
  | [] => st
  | e :: rest =>
    match e with
    | .single roi z next =>
      let curr := lookup2 st.roi_masks roi z
      recomputePreview { st with
        roi_masks := restoreMask st.roi_masks roi z next,
        redo_stack := rest,
        undo_stack := pushStack (.single roi z curr) st.undo_stack }
    | .group changes =>
      let a := groupApply changes st.roi_masks
      recomputePreview { st with
        roi_masks := a.1,
        redo_stack := rest,
        undo_stack := pushStack (.group a.2) st.undo_stack }

/-! ## Committed interpolation (`interpolate_all_slices`) -/

/-- What `interpolate_all_slices` reports to the user. -/
inductive InterpResult : Type
  | noRoi               -- "インターポレートするROIがありません"
  | insufficientSeeds   -- "インターポレートには最低2つのスライスが必要です"
  | done (count : Nat)  -- success (or "no slices to interpolate" when 0)
deriving DecidableEq

/-- One iteration of the seed-pair loop of `interpolate_all_slices`. -/
def allPairsStep (roi : RoiName)
    (acc : SliceMasks × Nat × List (RoiName × Nat × Option Mask)) (p : Nat × Nat) :
    SliceMasks × Nat × List (RoiName × Nat × Option Mask) :=
  if 1 < p.2 - p.1 then
    let q := performSmart acc.1 p.1 p.2
    (q.1, acc.2.1 + q.2.1, acc.2.2 ++ q.2.2.map (fun c => (roi, c.1, c.2)))
  else acc

/-- `interpolate_all_slices`: interpolate between every adjacent pair of
non-empty seed slices of the current ROI, pushing all changes as one
grouped undo entry; early no-op when the ROI is absent or fewer than two
seed slices exist. -/
def interpolateAll (st : EditorState) : EditorState × InterpResult :=
  match alookup st.roi_masks st.current_roi_name with
  | none => (st, .noRoi)
  | some sm0 =>
    let seeds := seedSlices sm0
    if seeds.length < 2 then (st, .insufficientSeeds)
    else
      let r := (consecPairs seeds).foldl (allPairsStep st.current_roi_name)
        (sm0, 0, ([] : List (RoiName × Nat × Option Mask)))
      let st1 := { st with
        roi_masks := ainsert st.roi_masks st.current_roi_name r.1,
        redo_stack := [] }
      let st2 :=
        if 0 < r.2.1 ∧ r.2.2 ≠ [] then
          { st1 with undo_stack := pushStack (.group r.2.2) st1.undo_stack }
        else st1
      (recomputePreview st2, .done r.2.1)

/-! ## PreviewEngine promotion -/

/-- What the preview-confirmation handlers report. -/
inductive ConfirmResult : Type
  | noPreview           -- "確定するプレビューがありません"
  | noSliceHere         -- "このスライスにプレビューはありません"
  | applied (count : Nat)
deriving DecidableEq

/-- One iteration of the preview-promotion loop of
`confirm_preview_to_roi`: skip empty previews and slices already holding
a non-empty committed mask, else write the preview mask and record the
prior for the grouped undo entry. -/
def confirmStep (roi : RoiName)
    (acc : RoiMasks × List (RoiName × Nat × Option Mask) × Nat) (p : Nat × Mask) :
    RoiMasks × List (RoiName × Nat × Option Mask) × Nat :=
  if ! anyTrue p.2 then acc
  else
    let sm := (alookup acc.1 roi).getD []
    match alookup sm p.1 with
    | some ex =>
      if anyTrue ex then acc
      else (ainsert acc.1 roi (ainsert sm p.1 p.2),
            acc.2.1 ++ [(roi, p.1, some ex)], acc.2.2 + 1)
    | none => (ainsert acc.1 roi (ainsert sm p.1 p.2),
            acc.2.1 ++ [(roi, p.1, none)], acc.2.2 + 1)

/-- `confirm_preview_to_roi` (promote): copy every non-empty preview slice
into the current ROI as one grouped undo entry, skipping slices that
already hold a non-empty committed mask, then clear the preview store. -/
def confirmPreviewToRoi (st : EditorState) : EditorState × ConfirmResult :=
  if st.preview_masks.isEmpty then (st, .noPreview)
  else
    let roi := st.current_roi_name
    let rm0 := ensureRoi st.roi_masks roi
    let sorted := List.insertionSort (fun a b => a.1 ≤ b.1) st.preview_masks
    let r := sorted.foldl (confirmStep roi)
      (rm0, ([] : List (RoiName × Nat × Option Mask)), 0)
    let st1 := { st with
      roi_masks := r.1,
      redo_stack := [],
      undo_stack :=
        if 0 < r.2.2 ∧ r.2.1 ≠ [] then pushStack (.group r.2.1) st.undo_stack
        else st.undo_stack,
      preview_masks := [] }
    (st1, .applied r.2.2)

/-- `confirm_preview_current_slice` (promoteSlice): commit the preview of
the current axial slice only, overwriting any committed mask there, with
a single-slice undo entry; only that slice's preview is removed. -/
def confirmPreviewCurrentSlice (st : EditorState) : EditorState × ConfirmResult :=
  if st.preview_masks.isEmpty then (st, .noPreview)
  else
    let z := st.current_axial
    match alookup st.preview_masks z with
    | none => (st, .noSliceHere)
    | some pmask =>
      if ! anyTrue pmask then (st, .noSliceHere)
      else
        let roi := st.current_roi_name
        let rm0 := ensureRoi st.roi_masks roi
        let sm := (alookup rm0 roi).getD []
        let prior := alookup sm z
        ({ st with
            roi_masks := ainsert rm0 roi (ainsert sm z pmask),
            redo_stack := [],
            undo_stack := pushStack (.single roi z prior) st.undo_stack,
            preview_masks := aerase st.preview_masks z },
          .applied 1)

/-! ## BrushEngine (`_fast_draw_at_position`, `_fast_draw_line`,
`start_drawing`, `continue_drawing`, `finish_drawing`) -/

/-- `brush_kernels.get(size, [[0, 0]])`: the precomputed disk footprint
for radii 1..30, a single-pixel fallback otherwise. -/
def kernelFor (size : Nat) : List (Int × Int) :=
  if 1 ≤ size ∧ size ≤ 30 then diskOffsets size else [(0, 0)]

/-- `brush_size if operation_mode == "brush" else eraser_size`. -/
def activeSize (st : EditorState) : Nat :=
  match st.operation_mode with
  | .brush => st.brush_size
  | _ => st.eraser_size

/-- The footprint positions `_fast_draw_at_position` actually writes:
`kernel_coords + [r, c]`, keeping only positions inside the `h × w`
grid (`valid = (pts[:,0] >= 0) & (pts[:,0] < h) & ...`). -/
def drawWritePts (m : Mask) (r c : Int) (size : Nat) : List (Int × Int) :=
  ((kernelFor size).map (fun o => (o.1 + r, o.2 + c))).filter
    (fun p => decide (0 ≤ p.1 ∧ p.1 < (mheight m : Int) ∧
      0 ≤ p.2 ∧ p.2 < (mwidth m : Int)))

/-- `_fast_draw_at_position`: stamp the disk footprint at `(r, c)`,
filtering out footprint pixels that fall outside the grid before
writing; sets pixels in brush mode, clears them in eraser mode. -/
def fastDrawAt (m : Mask) (r c : Int) (size : Nat) (tool : ToolMode) : Mask :=
  if 0 ≤ r ∧ r < (mheight m : Int) ∧ 0 ≤ c ∧ c < (mwidth m : Int) then
    let v := match tool with | .brush => true | .eraser => false
    (drawWritePts m r c size).foldl (fun m p => setPix m p.1.toNat p.2.toNat v) m
  else m

/-- The squared Euclidean pixel distance between two stroke points
(`np.hypot(r2-r1, c2-c1)` squared). -/
def pixDistSq (p1 p2 : Nat × Nat) : Nat :=
  (((p2.1 : Int) - p1.1) * ((p2.1 : Int) - p1.1) +
    ((p2.2 : Int) - p1.2) * ((p2.2 : Int) - p1.2)).toNat

/-- The `i`-th of `n` evenly spaced positions from `p1` to `p2`
(`np.linspace(0, 1, n)` applied to the segment), rounded like
`int(round(...))` in Python. -/
def lerpRound (p1 p2 : Nat × Nat) (i n : Nat) : Int × Int :=
  let t : Rat := (i : Rat) / ((n : Rat) - 1)
  (pyRound ((p1.1 : Rat) + t * (((p2.1 : Int) - p1.1 : Int) : Rat)),
   pyRound ((p1.2 : Rat) + t * (((p2.2 : Int) - p1.2 : Int) : Rat)))

/-- The stamp centres of `_fast_draw_line` from `p1` to `p2`:
`n = max(1, int(np.hypot(dr, dc)))` positions; for `n > 1` the rounded
points of `np.linspace(0, 1, n)` along the segment, else just `p2`. -/
def lineStampCenters (p1 p2 : Nat × Nat) : List (Int × Int) :=
  let n := max 1 (floorSqrt (pixDistSq p1 p2))
  if 1 < n then (List.range n).map (fun i => lerpRound p1 p2 i n)
  else [((p2.1 : Int), (p2.2 : Int))]

/-- `_fast_draw_line`: stamp the footprint at every centre of
`lineStampCenters`. -/
def fastDrawLine (m : Mask) (p1 p2 : Nat × Nat) (size : Nat) (tool : ToolMode) : Mask :=
  (lineStampCenters p1 p2).foldl (fun m p => fastDrawAt m p.1 p.2 size tool) m

/-- The tool-mode update done at every pointer event: eraser mode forces
the eraser, brush mode honours Shift as a temporary eraser, other modes
keep the previous tool. -/
def toolModeFor (mode : OperationMode) (shift : Bool) (prev : ToolMode) : ToolMode :=
  match mode with
  | .eraser => .eraser
  | .brush => if shift then .eraser else .brush
  | _ => prev

/-- `start_drawing`: bounds-check the pointer, record the pre-stroke state
for the undo entry and the snapshot, clear the redo stack, seed the
working mask from the committed mask, stamp the first disk, and mirror
the working mask into the store. -/
def startDrawing (st : EditorState) (row col : Int) (shift : Bool) : EditorState :=
  if 0 ≤ row ∧ row < st.height ∧ 0 ≤ col ∧ col < st.width then
    let roi := st.current_roi_name
    let z := st.current_axial
    let prev := lookup2 st.roi_masks roi z
    let prevSnap := prev.getD (zerosMask st.height st.width)
    let tool := toolModeFor st.operation_mode shift st.current_tool_mode
    let temp0 := prev.getD (zerosMask st.height st.width)
    let st1 := { st with redo_stack := [], current_tool_mode := tool }
    let temp1 := fastDrawAt temp0 row col (activeSize st1) tool
    { st1 with
      drawing := some {
        temp := temp1,
        undoState := (roi, z, prev),
        prevSnapshot := prevSnap,
        lastDrawPos := some (row.toNat, col.toNat) },
      roi_masks := applyTempMask st1.roi_masks roi z temp1 }
  else st

/-- `continue_drawing`: refresh the tool mode from the modifier state,
bounds-check the pointer, rasterize a line of disks from the previous
position, and mirror the working mask into the store. -/
def continueDrawing (st : EditorState) (row col : Int) (shift : Bool) : EditorState :=
  match st.drawing with
  | none => st
  | some ds =>
    let tool := toolModeFor st.operation_mode shift st.current_tool_mode
    let st1 := { st with current_tool_mode := tool }
    if 0 ≤ row ∧ row < st.height ∧ 0 ≤ col ∧ col < st.width then
      let temp' :=
        match ds.lastDrawPos with
        | some p1 => fastDrawLine ds.temp p1 (row.toNat, col.toNat) (activeSize st1) tool
        | none => fastDrawAt ds.temp row col (activeSize st1) tool
      { st1 with
        drawing := some { ds with temp := temp', lastDrawPos := some (row.toNat, col.toNat) },
        roi_masks := applyTempMask st1.roi_masks st1.current_roi_name st1.current_axial temp' }
    else st1

/-- `finish_drawing`: in brush mode run the contour-closing pipeline on
the working mask, write the result into the store, push the recorded
pre-stroke state as a single-slice undo entry, clear the transient stroke
state, and recompute the preview when auto-preview is on. -/
def finishDrawing (st : EditorState) : EditorState :=
  match st.drawing with
  | none => st
  | some ds =>
    let temp :=
      if st.current_tool_mode = .brush then
        contourCloseCode ds.temp ds.prevSnapshot (activeSize st)
      else ds.temp
    let st1 := { st with
      roi_masks := applyTempMask st.roi_masks st.current_roi_name st.current_axial temp,
      undo_stack := pushStack (.single ds.undoState.1 ds.undoState.2.1 ds.undoState.2.2)
        st.undo_stack,
      drawing := none }
    if st1.auto_preview_enabled then recomputePreview st1 else st1

/-! ## ROI management and navigation -/

/-- `change_roi_name`: rejected (no mutation) in game mode, for an empty
or unchanged name, or when the new name already exists in the color map;
otherwise transplant masks, color and visibility to the new key.
`newName` is the stripped text of the ROI name field
(`roi_name_edit.text().strip()`). -/
def changeRoiName (st : EditorState) (newName : String) : EditorState :=
  if st.game_lock_roi then st
  else
    let old := st.current_roi_name
    if newName = "" ∨ newName = old then st
    else if (alookup st.roi_color_map newName).isSome then st
    else
      let rm := match alookup st.roi_masks old with
        | some sm => ainsert (aerase st.roi_masks old) newName sm
        | none => st.roi_masks
      let cm := match alookup st.roi_color_map old with
        | some c => ainsert (aerase st.roi_color_map old) newName c
        | none => st.roi_color_map
      let vis := ainsert (aerase st.roi_visibility old) newName
        ((alookup st.roi_visibility old).getD true)
      { st with
          roi_masks := rm,
          roi_color_map := cm,
          roi_visibility := vis,
          current_roi_name := newName }

/-- `update_axial_slice`: move to another slice, abandoning any stroke in
progress. -/
def updateAxialSlice (st : EditorState) (value : Nat) : EditorState :=
  if value = st.current_axial then st
  else { st with current_axial := value, drawing := none }

/-- A pointer-move event of an active stroke. -/
structure MoveEvt : Type where
  row : Int
  col : Int
  shift : Bool
deriving DecidableEq

/-- A whole stroke: pointer down, a list of moves, pointer up. -/
def strokeCommit (st : EditorState) (row col : Int) (shift : Bool)
    (moves : List MoveEvt) : EditorState :=
  finishDrawing (moves.foldl (fun s mv => continueDrawing s mv.row mv.col mv.shift)
    (startDrawing st row col shift))

/-- The mutating operations of the engine, for stating store-wide
invariants. -/
inductive EditOp : Type
  | stroke (row col : Int) (shift : Bool) (moves : List MoveEvt)
  | interpolate
  | undoOp
  | redoOp
  | confirmAll
  | confirmSlice
  | rename (newName : String)
  | setAxial (z : Nat)

/-- Apply one operation. -/
def applyOp (st : EditorState) : EditOp → EditorState
  | .stroke row col shift moves => strokeCommit st row col shift moves
  | .interpolate => (interpolateAll st).1
  | .undoOp => undo st
  | .redoOp => redo st
  | .confirmAll => (confirmPreviewToRoi st).1
  | .confirmSlice => (confirmPreviewCurrentSlice st).1
  | .rename n => changeRoiName st n
  | .setAxial z => updateAxialSlice st z

/-- The number of slices of the current ROI holding a non-empty mask
(the seed count `interpolate_all_slices` checks). -/
def seedCount (st : EditorState) : Nat :=
  match alookup st.roi_masks st.current_roi_name with
  | none => 0
  | some sm => (seedSlices sm).length

/-! ## The no-empty-mask invariant -/

/-- A recorded prior is sound when it is absence or a non-empty mask. -/
def priorOk (p : Option Mask) : Bool :=
  match p with
  | none => true
  | some m => anyTrue m

/-- Every prior recorded in an undo/redo entry is sound. -/
def entryOk : UndoEntry → Bool
  | .single _ _ p => priorOk p
  | .group chs => chs.all (fun c => priorOk c.2.2)

/-- Every mask stored for one ROI is non-empty. -/
def smOk (sm : SliceMasks) : Bool := sm.all (fun s => anyTrue s.2)

/-- Every mask stored anywhere in the MaskStore is non-empty. -/
def storeOk (rm : RoiMasks) : Bool := rm.all (fun e => smOk e.2)

/-- The pre-stroke snapshot recorded by an active stroke is sound. -/
def drawOk (st : EditorState) : Bool :=
  match st.drawing with
  | none => true
  | some ds => priorOk ds.undoState.2.2

/-- The engine invariant: no all-false mask in the store, in any stack
entry, or in the recorded pre-stroke state. -/
def invOk (st : EditorState) : Bool :=
  storeOk st.roi_masks && st.undo_stack.all entryOk &&
    st.redo_stack.all entryOk && drawOk st

/-! ## Concrete states and inputs used to exercise the theorems -/

/-- A minimal editor state over a 1×1 volume with one ROI named "R". -/
def stW1 : EditorState := {
  height := 1, width := 1, roi_masks := [], undo_stack := [], redo_stack := [],
  preview_masks := [], roi_color_map := [("R", "red")], roi_visibility := [],
  current_roi_name := "R", current_axial := 0, operation_mode := .brush,
  current_tool_mode := .brush, brush_size := 1, eraser_size := 5,
  auto_preview_enabled := true, game_lock_roi := false, drawing := none }

/-- A 3×3-volume state with one ROI, brush size 1, used for the bounded
history scenario. -/
def st0C3 : EditorState := {
  height := 3, width := 3, roi_masks := [], undo_stack := [], redo_stack := [],
  preview_masks := [], roi_color_map := [("ROI_1", "red")], roi_visibility := [],
  current_roi_name := "ROI_1", current_axial := 0, operation_mode := .brush,
  current_tool_mode := .brush, brush_size := 1, eraser_size := 5,
  auto_preview_enabled := true, game_lock_roi := false, drawing := none }

/-- One single-slice edit: view slice `z` and commit a click at the centre
of the 3×3 grid. -/
def editAt (st : EditorState) (z : Nat) : EditorState :=
  strokeCommit (updateAxialSlice st z) 1 1 false []

/-- 41 sequential single-slice edits on slices 0..40. -/
def stAfter41 : EditorState := (List.range 41).foldl editAt st0C3

/-- Iterated `undo`. -/
def undoN : Nat → EditorState → EditorState
  | 0, st => st
  | n + 1, st => undoN n (undo st)

/-- The mask a size-1 brush click at the centre of a 3×3 slice commits
(after contour closing). -/
def centerMask3 : Mask := [[false, false, false], [false, true, false], [false, false, false]]

/-- A 5×5 square ring with a one-pixel gap at `(0, 2)`: a nearly-closed
brush stroke. -/
def ringGap5 : Mask := mkMask 5 5 (fun i j =>
  ((i = 0 || i = 4 || j = 0 || j = 4) && ! (i = 0 && j = 2)))

/-- A stroke-end state over a 5×5 volume whose working mask is the
nearly-closed ring `ringGap5`, drawn with brush size 1 on an empty slice. -/
def stC5 : EditorState := {
  height := 5, width := 5, roi_masks := [], undo_stack := [], redo_stack := [],
  preview_masks := [], roi_color_map := [("A", "red")], roi_visibility := [],
  current_roi_name := "A", current_axial := 0, operation_mode := .brush,
  current_tool_mode := .brush, brush_size := 1, eraser_size := 5,
  auto_preview_enabled := false, game_lock_roi := false,
  drawing := some {
    temp := ringGap5,
    undoState := ("A", 0, none),
    prevSnapshot := zerosMask 5 5,
    lastDrawPos := some (1, 1) } }

/-- Two non-empty seed slices (0 and 4) of a 1×1 volume. -/
def smW7 : SliceMasks := [(0, [[true]]), (4, [[true]])]

/-- A state whose ROI "R" holds the two seeds of `smW7`. -/
def stC7 : EditorState := { stW1 with roi_masks := [("R", smW7)] }

/-- A state with a committed non-empty mask at slice 2 and preview masks
at slices 1 and 2, viewing slice 2. -/
def stC4 : EditorState := { stW1 with
  roi_masks := [("R", [(2, [[true]])])],
  preview_masks := [(1, [[true]]), (2, [[false, true]])],
  current_axial := 2 }

/-! ## Basic lemmas about the store operations -/

theorem alookup_ensureRoi_self (rm : RoiMasks) (roi : RoiName) :
    alookup (ensureRoi rm roi) roi = some ((alookup rm roi).getD []) := by
  unfold ensureRoi
  cases h : alookup rm roi with
  | none => simp [alookup_ainsert_self]
  | some sm => simp [h]

theorem alookup_ensureRoi_ne (rm : RoiMasks) (roi roi' : RoiName) (h : roi' ≠ roi) :
    alookup (ensureRoi rm roi) roi' = alookup rm roi' := by
  unfold ensureRoi
  cases h' : alookup rm roi with
  | none => simp [alookup_ainsert_ne _ _ _ _ h]
  | some sm => rfl

theorem lookup2_restoreMask_self (rm : RoiMasks) (roi : RoiName) (z : Nat)
    (prior : Option Mask) : lookup2 (restoreMask rm roi z prior) roi z = prior := by
  unfold restoreMask lookup2
  cases prior with
  | none =>
      simp [alookup_ainsert_self, alookup_aerase_self]
  | some m =>
      simp [alookup_ainsert_self]

theorem lookup2_restoreMask_ne (rm : RoiMasks) (roi roi' : RoiName) (z z' : Nat)
    (prior : Option Mask) (h : (roi', z') ≠ (roi, z)) :
    lookup2 (restoreMask rm roi z prior) roi' z' = lookup2 rm roi' z' := by
  unfold restoreMask lookup2
  by_cases hr : roi' = roi
  · subst hr
    have hz : z' ≠ z := by
      intro hz; exact h (by simp [hz])
    cases prior with
    | none =>
        simp [alookup_ainsert_self, alookup_aerase_ne _ _ _ hz]
        rw [alookup_ensureRoi_self]
        cases halt : alookup rm roi' with
        | none => simp [alookup]
        | some sm => simp
    | some m =>
        simp [alookup_ainsert_self, alookup_ainsert_ne _ _ _ _ hz]
        rw [alookup_ensureRoi_self]
        cases halt : alookup rm roi' with
        | none => simp [alookup]
        | some sm => simp
  · cases prior with
    | none => simp [alookup_ainsert_ne _ _ _ _ hr, alookup_ensureRoi_ne _ _ _ hr]
    | some m => simp [alookup_ainsert_ne _ _ _ _ hr, alookup_ensureRoi_ne _ _ _ hr]

theorem lookup2_applyTempMask_self (rm : RoiMasks) (roi : RoiName) (z : Nat)
    (temp : Mask) :
    lookup2 (applyTempMask rm roi z temp) roi z =
      (if anyTrue temp then some temp else none) := by
  unfold applyTempMask lookup2
  by_cases h : anyTrue temp
  · simp [h, alookup_ainsert_self]
  · simp [h, alookup_ainsert_self, alookup_aerase_self]

theorem lookup2_applyTempMask_ne (rm : RoiMasks) (roi roi' : RoiName) (z z' : Nat)
    (temp : Mask) (h : (roi', z') ≠ (roi, z)) :
    lookup2 (applyTempMask rm roi z temp) roi' z' = lookup2 rm roi' z' := by
  unfold applyTempMask lookup2
  by_cases hr : roi' = roi
  · subst hr
    have hz : z' ≠ z := by
      intro hz; exact h (by simp [hz])
    by_cases ht : anyTrue temp
    · simp [ht, alookup_ainsert_self, alookup_ainsert_ne _ _ _ _ hz]
      rw [alookup_ensureRoi_self]
      cases halt : alookup rm roi' with
      | none => simp [alookup]
      | some sm => simp
    · simp [ht, alookup_ainsert_self, alookup_aerase_ne _ _ _ hz]
      rw [alookup_ensureRoi_self]
      cases halt : alookup rm roi' with
      | none => simp [alookup]
      | some sm => simp
  · by_cases ht : anyTrue temp <;>
      simp [ht, alookup_ainsert_ne _ _ _ _ hr, alookup_ensureRoi_ne _ _ _ hr]

/-- `recompute_preview_for_current_roi` touches only `preview_masks`. -/
theorem recomputePreview_fields (st : EditorState) :
    (recomputePreview st).roi_masks = st.roi_masks ∧
    (recomputePreview st).undo_stack = st.undo_stack ∧
    (recomputePreview st).redo_stack = st.redo_stack ∧
    (recomputePreview st).current_roi_name = st.current_roi_name ∧
    (recomputePreview st).current_axial = st.current_axial := by
  unfold recomputePreview
  by_cases h : st.auto_preview_enabled
  · simp only [h]
    cases h' : alookup st.roi_masks st.current_roi_name with
    | none => simp
    | some sm =>
        by_cases h2 : (seedSlices sm).length < 2 <;> simp [h2]
  · simp [h]

theorem pushStack_cons (e : UndoEntry) (s : List UndoEntry) :
    pushStack e s = e :: s.take 39 := by
  simp [pushStack, List.take_succ_cons]

theorem pushStack_length_le (e : UndoEntry) (s : List UndoEntry) :
    (pushStack e s).length ≤ 40 := by
  simp [pushStack]

/-! ## Frame lemmas for the interpolation loops -/

theorem mem_rangeOpen (s0 s1 z : Nat) : z ∈ rangeOpen s0 s1 ↔ s0 < z ∧ z < s1 := by
  unfold rangeOpen
  rw [List.mem_range'_1]
  omega

theorem smartStep_frame (m0 m1 : Mask) (s0 s1 : Nat)
    (acc : SliceMasks × Nat × List (Nat × Option Mask)) (z z' : Nat) (h : z' ≠ z) :
    alookup (smartStep m0 m1 s0 s1 acc z).1 z' = alookup acc.1 z' := by
  unfold smartStep
  dsimp only
  split
  · simp [alookup_ainsert_ne _ _ _ _ h]
  · split
    · simp [alookup_aerase_ne _ _ _ h]
    · rfl

theorem foldl_smartStep_frame (m0 m1 : Mask) (s0 s1 : Nat) :
    ∀ (l : List Nat) (acc : SliceMasks × Nat × List (Nat × Option Mask)) (z' : Nat),
      z' ∉ l →
      alookup (l.foldl (smartStep m0 m1 s0 s1) acc).1 z' = alookup acc.1 z' := by
  intro l
  induction l with
  | nil => intro acc z' _; rfl
  | cons a t ih =>
      intro acc z' h
      have h' : z' ≠ a ∧ z' ∉ t := by
        constructor <;> intro hc <;> exact h (by simp [hc])
      rw [List.foldl_cons, ih _ _ h'.2, smartStep_frame _ _ _ _ _ _ _ h'.1]

/-- `_perform_smart_interpolation` leaves every slice outside the open
interval `(s0, s1)` untouched — in particular the seed slices `s0`, `s1`. -/
theorem performSmart_frame (sm : SliceMasks) (s0 s1 z : Nat)
    (h : ¬(s0 < z ∧ z < s1)) :
    alookup (performSmart sm s0 s1).1 z = alookup sm z := by
  unfold performSmart
  cases h0 : alookup sm s0 with
  | none => rfl
  | some m0 =>
    cases h1 : alookup sm s1 with
    | none => rfl
    | some m1 =>
      dsimp only
      split
      · exact foldl_smartStep_frame m0 m1 s0 s1 _ _ z
          (fun hc => h ((mem_rangeOpen s0 s1 z).mp hc))
      · rfl

theorem previewStep_frame (sm : SliceMasks) (m0 m1 : Mask) (s0 s1 : Nat)
    (pm : List (Nat × Mask)) (z z' : Nat) (h : z' ≠ z) :
    alookup (previewStep sm m0 m1 s0 s1 pm z) z' = alookup pm z' := by
  unfold previewStep
  dsimp only
  split
  · split
    · simp [alookup_ainsert_ne _ _ _ _ h]
    · rfl
  · rfl

theorem foldl_previewStep_frame (sm : SliceMasks) (m0 m1 : Mask) (s0 s1 : Nat) :
    ∀ (l : List Nat) (pm : List (Nat × Mask)) (z' : Nat), z' ∉ l →
      alookup (l.foldl (previewStep sm m0 m1 s0 s1) pm) z' = alookup pm z' := by
  intro l
  induction l with
  | nil => intro pm z' _; rfl
  | cons a t ih =>
      intro pm z' h
      have h' : z' ≠ a ∧ z' ∉ t := by
        constructor <;> intro hc <;> exact h (by simp [hc])
      rw [List.foldl_cons, ih _ _ h'.2, previewStep_frame _ _ _ _ _ _ _ _ h'.1]

theorem previewPairFill_frame (sm : SliceMasks) (pm : List (Nat × Mask))
    (m0 m1 : Mask) (s0 s1 z : Nat) (h : ¬(s0 < z ∧ z < s1)) :
    alookup (previewPairFill sm pm m0 m1 s0 s1) z = alookup pm z :=
  foldl_previewStep_frame sm m0 m1 s0 s1 _ pm z
    (fun hc => h ((mem_rangeOpen s0 s1 z).mp hc))

theorem pairStep_frame (sm : SliceMasks) (pm : List (Nat × Mask)) (p : Nat × Nat)
    (z : Nat) (h : ¬(p.1 < z ∧ z < p.2)) :
    alookup (pairStep sm pm p) z = alookup pm z := by
  unfold pairStep
  split
  · rfl
  · split
    · exact previewPairFill_frame _ _ _ _ _ _ _ h
    · rfl

theorem foldl_pairStep_frame (sm : SliceMasks) :
    ∀ (pairs : List (Nat × Nat)) (pm : List (Nat × Mask)) (z : Nat),
      (∀ p ∈ pairs, ¬(p.1 < z ∧ z < p.2)) →
      alookup (pairs.foldl (pairStep sm) pm) z = alookup pm z := by
  intro pairs
  induction pairs with
  | nil => intro pm z _; rfl
  | cons a t ih =>
      intro pm z h
      rw [List.foldl_cons, ih _ _ (fun p hp => h p (by simp [hp])),
        pairStep_frame _ _ _ _ (h a (by simp))]

/-- The preview recomputation writes only to slices strictly inside some
adjacent seed pair. -/
theorem fillPreviewPairs_none (sm : SliceMasks) (pairs : List (Nat × Nat)) (z : Nat)
    (h : ∀ p ∈ pairs, ¬(p.1 < z ∧ z < p.2)) :
    alookup (fillPreviewPairs sm pairs) z = none := by
  unfold fillPreviewPairs
  rw [foldl_pairStep_frame sm pairs [] z h]
  rfl

theorem allPairsStep_frame (roi : RoiName)
    (acc : SliceMasks × Nat × List (RoiName × Nat × Option Mask)) (p : Nat × Nat)
    (z : Nat) (h : ¬(p.1 < z ∧ z < p.2)) :
    alookup (allPairsStep roi acc p).1 z = alookup acc.1 z := by
  unfold allPairsStep
  dsimp only
  split
  · exact performSmart_frame _ _ _ _ h
  · rfl

theorem foldl_allPairsStep_frame (roi : RoiName) :
    ∀ (pairs : List (Nat × Nat))
      (acc : SliceMasks × Nat × List (RoiName × Nat × Option Mask)) (z : Nat),
      (∀ p ∈ pairs, ¬(p.1 < z ∧ z < p.2)) →
      alookup (pairs.foldl (allPairsStep roi) acc).1 z = alookup acc.1 z := by
  intro pairs
  induction pairs with
  | nil => intro acc z _; rfl
  | cons a t ih =>
      intro acc z h
      rw [List.foldl_cons, ih _ _ (fun p hp => h p (by simp [hp])),
        allPairsStep_frame _ _ _ _ (h a (by simp))]

/-! ## Adjacent pairs of a sorted list have no list element strictly
between them -/

theorem consecPairs_split :
    ∀ {l : List Nat} {a b : Nat}, (a, b) ∈ consecPairs l →
      ∃ l1 l2, l = l1 ++ a :: b :: l2 := by
  intro l
  induction l with
  | nil => intro a b h; simp [consecPairs] at h
  | cons x t ih =>
      intro a b h
      cases t with
      | nil => simp [consecPairs] at h
      | cons y t' =>
          simp only [consecPairs, List.tail_cons, List.zip_cons_cons, List.mem_cons] at h
          rcases h with h | h
          · rcases h with ⟨rfl, rfl⟩
            exact ⟨[], t', rfl⟩
          · have h' : (a, b) ∈ consecPairs (y :: t') := by
              simpa [consecPairs] using h
            obtain ⟨l1, l2, hl⟩ := ih h'
            exact ⟨x :: l1, l2, by simp [hl]⟩

theorem sorted_not_strictly_between (l : List Nat) (hs : List.Sorted (· ≤ ·) l)
    (s : Nat) (hmem : s ∈ l) (a b : Nat) (hp : (a, b) ∈ consecPairs l) :
    ¬(a < s ∧ s < b) := by
  obtain ⟨l1, l2, rfl⟩ := consecPairs_split hp
  rw [List.Sorted, List.pairwise_append] at hs
  obtain ⟨_, hs2, hcross⟩ := hs
  rw [List.pairwise_cons] at hs2
  obtain ⟨ha, hs3⟩ := hs2
  rw [List.pairwise_cons] at hs3
  obtain ⟨hb, _⟩ := hs3
  rintro ⟨h1, h2⟩
  rcases List.mem_append.mp hmem with h | h
  · have := hcross s h a (by simp)
    omega
  · rcases List.mem_cons.mp h with rfl | h
    · omega
    · rcases List.mem_cons.mp h with rfl | h
      · omega
      · have := hb s h
        omega

theorem seedSlices_sorted (sm : SliceMasks) :
    List.Sorted (· ≤ ·) (seedSlices sm) :=
  List.sorted_insertionSort _ _

/-! ## The grouped undo/redo loop -/

/-- The change key: the `(roi, slice)` pair a change applies to. -/
def chKey (c : RoiName × Nat × Option Mask) : RoiName × Nat := (c.1, c.2.1)

theorem foldl_groupStep_frame :
    ∀ (changes : List (RoiName × Nat × Option Mask))
      (acc : RoiMasks × List (RoiName × Nat × Option Mask)) (roi : RoiName) (z : Nat),
      (∀ c ∈ changes, chKey c ≠ (roi, z)) →
      lookup2 (changes.foldl groupStep acc).1 roi z = lookup2 acc.1 roi z := by
  intro changes
  induction changes with
  | nil => intro acc roi z _; rfl
  | cons c cs ih =>
      intro acc roi z h
      rw [List.foldl_cons, ih _ _ _ (fun c' hc' => h c' (by simp [hc']))]
      exact lookup2_restoreMask_ne _ _ _ _ _ _ (Ne.symm (h c (by simp)))

theorem foldl_groupStep_spec :
    ∀ (changes : List (RoiName × Nat × Option Mask)) (rm : RoiMasks)
      (acc : List (RoiName × Nat × Option Mask)),
      (changes.map chKey).Nodup →
      (∀ c ∈ changes,
          lookup2 (changes.foldl groupStep (rm, acc)).1 c.1 c.2.1 = c.2.2) ∧
        (changes.foldl groupStep (rm, acc)).2 =
          acc ++ changes.map (fun c => (c.1, c.2.1, lookup2 rm c.1 c.2.1)) := by
  intro changes
  induction changes with
  | nil => intro rm acc _; simp
  | cons c cs ih =>
      intro rm acc hnd
      rw [List.map_cons, List.nodup_cons] at hnd
      obtain ⟨hkey, hnd'⟩ := hnd
      have hne : ∀ c' ∈ cs, chKey c' ≠ chKey c := by
        intro c' hc' he
        exact hkey (he ▸ List.mem_map_of_mem chKey hc')
      have hstep : cs.foldl groupStep (groupStep (rm, acc) c) =
          cs.foldl groupStep
            (restoreMask rm c.1 c.2.1 c.2.2,
             acc ++ [(c.1, c.2.1, lookup2 rm c.1 c.2.1)]) := rfl
      obtain ⟨ih1, ih2⟩ := ih (restoreMask rm c.1 c.2.1 c.2.2)
        (acc ++ [(c.1, c.2.1, lookup2 rm c.1 c.2.1)]) hnd'
      constructor
      · intro c' hc'
        rcases List.mem_cons.mp hc' with rfl | hc'
        · rw [List.foldl_cons, hstep,
            foldl_groupStep_frame cs _ c'.1 c'.2.1 (fun x hx => hne x hx),
            lookup2_restoreMask_self]
        · rw [List.foldl_cons, hstep]
          exact ih1 c' hc'
      · have hmapeq :
            List.map (fun c' =>
              (c'.1, c'.2.1, lookup2 (restoreMask rm c.1 c.2.1 c.2.2) c'.1 c'.2.1)) cs =
            List.map (fun c' => (c'.1, c'.2.1, lookup2 rm c'.1 c'.2.1)) cs := by
          apply List.map_congr_left
          intro c' hc'
          have h3 : ((c'.1, c'.2.1) : RoiName × Nat) ≠ (c.1, c.2.1) := by
            simpa [chKey] using hne c' hc'
          rw [lookup2_restoreMask_ne rm c.1 c'.1 c.2.1 c'.2.1 c.2.2 h3]
        rw [List.foldl_cons, hstep, ih2, hmapeq, List.map_cons, List.append_assoc,
          List.singleton_append]

/-- The whole grouped restore loop: with pairwise-distinct `(roi, slice)`
keys, every change's slot ends at its recorded prior value, and the
mirror change list records the pre-loop current values. -/
theorem groupApply_spec (changes : List (RoiName × Nat × Option Mask)) (rm : RoiMasks)
    (hnd : (changes.map chKey).Nodup) :
    (∀ c ∈ changes, lookup2 (groupApply changes rm).1 c.1 c.2.1 = c.2.2) ∧
      (groupApply changes rm).2 =
        changes.map (fun c => (c.1, c.2.1, lookup2 rm c.1 c.2.1)) := by
  have := foldl_groupStep_spec changes rm [] hnd
  simpa [groupApply] using this

/-! ## Shapes of `undo` and `redo` -/

theorem undo_single_shape (st : EditorState) (roi : RoiName) (z : Nat)
    (prior : Option Mask) (rest : List UndoEntry)
    (h : st.undo_stack = .single roi z prior :: rest) :
    lookup2 (undo st).roi_masks roi z = prior ∧
    (undo st).redo_stack =
      pushStack (.single roi z (lookup2 st.roi_masks roi z)) st.redo_stack ∧
    (undo st).undo_stack = rest := by
  unfold undo
  rw [h]
  obtain ⟨h1, h2, h3, -, -⟩ := recomputePreview_fields
    { st with
      roi_masks := restoreMask st.roi_masks roi z prior,
      undo_stack := rest,
      redo_stack := pushStack (.single roi z (lookup2 st.roi_masks roi z)) st.redo_stack }
  refine ⟨?_, ?_, ?_⟩
  · rw [h1]
    exact lookup2_restoreMask_self _ _ _ _
  · rw [h3]
  · rw [h2]

theorem redo_single_shape (st : EditorState) (roi : RoiName) (z : Nat)
    (next : Option Mask) (rest : List UndoEntry)
    (h : st.redo_stack = .single roi z next :: rest) :
    lookup2 (redo st).roi_masks roi z = next ∧
    (redo st).undo_stack =
      pushStack (.single roi z (lookup2 st.roi_masks roi z)) st.undo_stack ∧
    (redo st).redo_stack = rest := by
  unfold redo
  rw [h]
  obtain ⟨h1, h2, h3, -, -⟩ := recomputePreview_fields
    { st with
      roi_masks := restoreMask st.roi_masks roi z next,
      redo_stack := rest,
      undo_stack := pushStack (.single roi z (lookup2 st.roi_masks roi z)) st.undo_stack }
  refine ⟨?_, ?_, ?_⟩
  · rw [h1]
    exact lookup2_restoreMask_self _ _ _ _
  · rw [h2]
  · rw [h3]

theorem undo_group_shape (st : EditorState)
    (changes : List (RoiName × Nat × Option Mask)) (rest : List UndoEntry)
    (h : st.undo_stack = .group changes :: rest) :
    (undo st).roi_masks = (groupApply changes st.roi_masks).1 ∧
    (undo st).redo_stack =
      pushStack (.group (groupApply changes st.roi_masks).2) st.redo_stack := by
  unfold undo
  rw [h]
  obtain ⟨h1, -, h3, -, -⟩ := recomputePreview_fields
    { st with
      roi_masks := (groupApply changes st.roi_masks).1,
      undo_stack := rest,
      redo_stack := pushStack (.group (groupApply changes st.roi_masks).2) st.redo_stack }
  exact ⟨by rw [h1], by rw [h3]⟩

theorem redo_group_shape (st : EditorState)
    (changes : List (RoiName × Nat × Option Mask)) (rest : List UndoEntry)
    (h : st.redo_stack = .group changes :: rest) :
    (redo st).roi_masks = (groupApply changes st.roi_masks).1 ∧
    (redo st).undo_stack =
      pushStack (.group (groupApply changes st.roi_masks).2) st.undo_stack := by
  unfold redo
  rw [h]
  obtain ⟨h1, h2, -, -, -⟩ := recomputePreview_fields
    { st with
      roi_masks := (groupApply changes st.roi_masks).1,
      redo_stack := rest,
      undo_stack := pushStack (.group (groupApply changes st.roi_masks).2) st.undo_stack }
  exact ⟨by rw [h1], by rw [h2]⟩

/-! ## Stroke bookkeeping -/

theorem startDrawing_fields (st : EditorState) (row col : Int) (shift : Bool)
    (h : 0 ≤ row ∧ row < st.height ∧ 0 ≤ col ∧ col < st.width) :
    (startDrawing st row col shift).current_roi_name = st.current_roi_name ∧
    (startDrawing st row col shift).current_axial = st.current_axial ∧
    (startDrawing st row col shift).undo_stack = st.undo_stack ∧
    (startDrawing st row col shift).redo_stack = [] ∧
    ∃ ds, (startDrawing st row col shift).drawing = some ds ∧
      ds.undoState = (st.current_roi_name, st.current_axial,
        lookup2 st.roi_masks st.current_roi_name st.current_axial) := by
  unfold startDrawing
  rw [if_pos h]
  exact ⟨rfl, rfl, rfl, rfl, _, rfl, rfl⟩

theorem continueDrawing_inv (st : EditorState) (row col : Int) (shift : Bool)
    (roi : RoiName) (z : Nat) (u : RoiName × Nat × Option Mask)
    (h1 : st.current_roi_name = roi) (h2 : st.current_axial = z)
    (h3 : ∃ ds, st.drawing = some ds ∧ ds.undoState = u) :
    (continueDrawing st row col shift).current_roi_name = roi ∧
    (continueDrawing st row col shift).current_axial = z ∧
    (continueDrawing st row col shift).undo_stack = st.undo_stack ∧
    (continueDrawing st row col shift).redo_stack = st.redo_stack ∧
    ∃ ds, (continueDrawing st row col shift).drawing = some ds ∧ ds.undoState = u := by
  obtain ⟨ds, hds, hu⟩ := h3
  unfold continueDrawing
  rw [hds]
  dsimp only
  split
  · exact ⟨h1, h2, rfl, rfl, _, rfl, hu⟩
  · exact ⟨h1, h2, rfl, rfl, ds, rfl, hu⟩

theorem foldl_continueDrawing_inv (moves : List MoveEvt) :
    ∀ (st : EditorState) (roi : RoiName) (z : Nat) (u : RoiName × Nat × Option Mask),
      st.current_roi_name = roi → st.current_axial = z →
      (∃ ds, st.drawing = some ds ∧ ds.undoState = u) →
      (moves.foldl (fun s mv => continueDrawing s mv.row mv.col mv.shift) st).current_roi_name
          = roi ∧
      (moves.foldl (fun s mv => continueDrawing s mv.row mv.col mv.shift) st).current_axial
          = z ∧
      (moves.foldl (fun s mv => continueDrawing s mv.row mv.col mv.shift) st).undo_stack
          = st.undo_stack ∧
      (moves.foldl (fun s mv => continueDrawing s mv.row mv.col mv.shift) st).redo_stack
          = st.redo_stack ∧
      ∃ ds,
        (moves.foldl (fun s mv => continueDrawing s mv.row mv.col mv.shift) st).drawing
            = some ds ∧
        ds.undoState = u := by
  induction moves with
  | nil => intro st roi z u h1 h2 h3; exact ⟨h1, h2, rfl, rfl, h3⟩
  | cons mv t ih =>
      intro st roi z u h1 h2 h3
      simp only [List.foldl_cons]
      obtain ⟨g1, g2, g3, g4, g5⟩ :=
        continueDrawing_inv st mv.row mv.col mv.shift roi z u h1 h2 h3
      obtain ⟨f1, f2, f3, f4, f5⟩ :=
        ih (continueDrawing st mv.row mv.col mv.shift) roi z u g1 g2 g5
      exact ⟨f1, f2, by rw [f3, g3], by rw [f4, g4], f5⟩

theorem finishDrawing_shape (st : EditorState) (ds : DrawState)
    (h : st.drawing = some ds) :
    (finishDrawing st).roi_masks =
      applyTempMask st.roi_masks st.current_roi_name st.current_axial
        (if st.current_tool_mode = .brush then
          contourCloseCode ds.temp ds.prevSnapshot (activeSize st)
        else ds.temp) ∧
    (finishDrawing st).undo_stack =
      pushStack (.single ds.undoState.1 ds.undoState.2.1 ds.undoState.2.2)
        st.undo_stack ∧
    (finishDrawing st).redo_stack = st.redo_stack := by
  unfold finishDrawing
  rw [h]
  dsimp only
  split
  · obtain ⟨h1, h2, h3, -, -⟩ := recomputePreview_fields _
    exact ⟨by rw [h1], by rw [h2], by rw [h3]⟩
  · exact ⟨rfl, rfl, rfl⟩

/-! ## Claim C1 -/

/-- C1: a single-slice edit committed at stroke end pushes the pre-stroke
mask-or-absence; `undo()` then restores the affected (ROI, slice) of the
MaskStore exactly to its pre-edit state, and `redo()` right after restores
the post-edit state exactly; for a grouped entry (with its pairwise
distinct (roi, slice) keys) the same round trip holds simultaneously for
every (roi, slice, prior) tuple of the group. -/
theorem C1_undo_redo_inverse :
    (∀ (st : EditorState) (row col : Int) (shift : Bool) (moves : List MoveEvt),
      0 ≤ row ∧ row < st.height ∧ 0 ≤ col ∧ col < st.width →
      lookup2 (undo (strokeCommit st row col shift moves)).roi_masks
          st.current_roi_name st.current_axial
        = lookup2 st.roi_masks st.current_roi_name st.current_axial ∧
      lookup2 (redo (undo (strokeCommit st row col shift moves))).roi_masks
          st.current_roi_name st.current_axial
        = lookup2 (strokeCommit st row col shift moves).roi_masks
            st.current_roi_name st.current_axial) ∧
    (∀ (st : EditorState) (changes : List (RoiName × Nat × Option Mask))
        (rest : List UndoEntry),
      st.undo_stack = .group changes :: rest →
      (changes.map chKey).Nodup →
      ∀ c ∈ changes,
        lookup2 (undo st).roi_masks c.1 c.2.1 = c.2.2 ∧
        lookup2 (redo (undo st)).roi_masks c.1 c.2.1 =
          lookup2 st.roi_masks c.1 c.2.1) := by
  constructor
  · intro st row col shift moves h
    obtain ⟨s1, s2, s3, s4, ds1, hds1, hu1⟩ := startDrawing_fields st row col shift h
    obtain ⟨f1, f2, f3, f4, ds2, hds2, hu2⟩ :=
      foldl_continueDrawing_inv moves (startDrawing st row col shift)
        st.current_roi_name st.current_axial
        (st.current_roi_name, st.current_axial,
          lookup2 st.roi_masks st.current_roi_name st.current_axial)
        s1 s2 ⟨ds1, hds1, hu1⟩
    obtain ⟨e1, e2, e3⟩ := finishDrawing_shape
      (moves.foldl (fun s mv => continueDrawing s mv.row mv.col mv.shift)
        (startDrawing st row col shift)) ds2 hds2
    have hstack : (strokeCommit st row col shift moves).undo_stack =
        .single st.current_roi_name st.current_axial
          (lookup2 st.roi_masks st.current_roi_name st.current_axial) ::
          (st.undo_stack.take 39) := by
      show (finishDrawing _).undo_stack = _
      rw [e2, hu2, f3, s3, pushStack_cons]
    obtain ⟨u1, u2, u3⟩ := undo_single_shape (strokeCommit st row col shift moves)
      st.current_roi_name st.current_axial
      (lookup2 st.roi_masks st.current_roi_name st.current_axial)
      (st.undo_stack.take 39) hstack
    have hredostack : (undo (strokeCommit st row col shift moves)).redo_stack =
        .single st.current_roi_name st.current_axial
          (lookup2 (strokeCommit st row col shift moves).roi_masks
            st.current_roi_name st.current_axial) ::
          ((strokeCommit st row col shift moves).redo_stack.take 39) := by
      rw [u2, pushStack_cons]
    obtain ⟨r1, -, -⟩ := redo_single_shape (undo (strokeCommit st row col shift moves))
      st.current_roi_name st.current_axial
      (lookup2 (strokeCommit st row col shift moves).roi_masks
        st.current_roi_name st.current_axial)
      ((strokeCommit st row col shift moves).redo_stack.take 39) hredostack
    refine ⟨u1, ?_⟩
    rw [r1]
  · intro st changes rest h hnd c hc
    obtain ⟨hrm, hredo⟩ := undo_group_shape st changes rest h
    obtain ⟨g1, g2⟩ := groupApply_spec changes st.roi_masks hnd
    refine ⟨by rw [hrm]; exact g1 c hc, ?_⟩
    have hred : (undo st).redo_stack =
        .group ((groupApply changes st.roi_masks).2) :: (st.redo_stack.take 39) := by
      rw [hredo, pushStack_cons]
    obtain ⟨hrm2, -⟩ := redo_group_shape (undo st) _ _ hred
    have hnd2 : (((groupApply changes st.roi_masks).2).map chKey).Nodup := by
      rw [g2, List.map_map]
      exact hnd
    obtain ⟨g1', -⟩ := groupApply_spec _ ((undo st).roi_masks) hnd2
    have hcmem : (c.1, c.2.1, lookup2 st.roi_masks c.1 c.2.1) ∈
        (groupApply changes st.roi_masks).2 := by
      rw [g2]
      exact List.mem_map_of_mem _ hc
    rw [hrm2]
    exact g1' _ hcmem

/-- Witness for C1: the round trip evaluated on a concrete single-click
stroke over the 1×1 volume. -/
theorem C1_undo_redo_inverse_witness :
    lookup2 (undo (strokeCommit stW1 0 0 false [])).roi_masks "R" 0
      = lookup2 stW1.roi_masks "R" 0 ∧
    lookup2 (redo (undo (strokeCommit stW1 0 0 false []))).roi_masks "R" 0
      = lookup2 (strokeCommit stW1 0 0 false []).roi_masks "R" 0 :=
  C1_undo_redo_inverse.1 stW1 0 0 false [] (by decide)

/-! ## Claim C3 -/

set_option maxRecDepth 200000

/-- C3: the undo/redo stacks hold at most 40 entries, with the oldest
evicted when a 41st is pushed; `undo` on an empty stack is a no-op; and in
the concrete 41-edit scenario the stack caps at 40, `undo()` succeeds 40
times (the 41st call changes nothing) while the oldest edit's effect
(slice 0) stays committed. -/
theorem C3_bounded_history :
    (∀ (e : UndoEntry) (s : List UndoEntry), (pushStack e s).length ≤ 40) ∧
    (∀ (e : UndoEntry) (s : List UndoEntry), s.length = 40 →
      pushStack e s = e :: s.dropLast) ∧
    (∀ st : EditorState, st.undo_stack = [] → undo st = st) ∧
    stAfter41.undo_stack.length = 40 ∧
    (undoN 40 stAfter41).undo_stack = [] ∧
    undoN 41 stAfter41 = undoN 40 stAfter41 ∧
    lookup2 (undoN 40 stAfter41).roi_masks "ROI_1" 0 = some centerMask3 ∧
    lookup2 stAfter41.roi_masks "ROI_1" 0 = some centerMask3 := by
  refine ⟨pushStack_length_le, ?_, ?_, ?_, ?_, ?_, ?_, ?_⟩
  · intro e s hlen
    rw [pushStack_cons]
    congr 1
    rw [List.dropLast_eq_take, hlen]
  · intro st h
    unfold undo
    rw [h]
  · decide
  · decide
  · decide
  · decide
  · decide

/-- Witness for C3: the stack-exhaustion no-op applied at the concrete
scenario state, discharging the empty-stack hypothesis there. -/
theorem C3_bounded_history_witness :
    (undoN 40 stAfter41).undo_stack = [] ∧
    undo (undoN 40 stAfter41) = undoN 40 stAfter41 :=
  ⟨C3_bounded_history.2.2.2.2.1,
   C3_bounded_history.2.2.1 _ C3_bounded_history.2.2.2.2.1⟩

/-! ## Claim C8 -/

/-- C8: with fewer than two non-empty seed slices for the current ROI,
`interpolate_all_slices` changes nothing at all — the state (store, both
stacks, preview) is returned untouched — and reports the early no-op
rather than performing work. -/
theorem C8_no_seed_no_interpolation (st : EditorState) (h : seedCount st < 2) :
    (interpolateAll st).1 = st ∧
    ((interpolateAll st).2 = .noRoi ∨ (interpolateAll st).2 = .insufficientSeeds) := by
  unfold interpolateAll
  unfold seedCount at h
  cases halt : alookup st.roi_masks st.current_roi_name with
  | none => exact ⟨rfl, Or.inl rfl⟩
  | some sm =>
      rw [halt] at h
      dsimp only
      rw [if_pos h]
      exact ⟨rfl, Or.inr rfl⟩

/-- Witness for C8: the empty store has zero seeds, and interpolation on
it is the identity. -/
theorem C8_no_seed_no_interpolation_witness :
    (interpolateAll stW1).1 = stW1 ∧
    ((interpolateAll stW1).2 = .noRoi ∨ (interpolateAll stW1).2 = .insufficientSeeds) :=
  C8_no_seed_no_interpolation stW1 (by decide)

/-! ## Claim C7 -/

/-- `interpolate_all_slices` never modifies the committed mask of any
seed slice of the current ROI. -/
theorem interpolateAll_preserves_seeds (st : EditorState) (sm0 : SliceMasks) (s : Nat)
    (h : alookup st.roi_masks st.current_roi_name = some sm0)
    (hs : s ∈ seedSlices sm0) :
    lookup2 (interpolateAll st).1.roi_masks st.current_roi_name s
      = lookup2 st.roi_masks st.current_roi_name s := by
  unfold interpolateAll
  rw [h]
  dsimp only
  split
  · rfl
  · have hfold : ∀ p ∈ consecPairs (seedSlices sm0), ¬(p.1 < s ∧ s < p.2) := by
      intro p hp
      exact sorted_not_strictly_between _ (seedSlices_sorted sm0) s hs p.1 p.2
        (by simpa using hp)
    have hframe := foldl_allPairsStep_frame st.current_roi_name
      (consecPairs (seedSlices sm0)) (sm0, 0, []) s hfold
    split
    · rw [(recomputePreview_fields _).1]
      dsimp only
      unfold lookup2
      rw [alookup_ainsert_self, h]
      dsimp only [Option.bind]
      exact hframe
    · rw [(recomputePreview_fields _).1]
      dsimp only
      unfold lookup2
      rw [alookup_ainsert_self, h]
      dsimp only [Option.bind]
      exact hframe

/-- C7: for every seed pair `s0 < s1` used as interpolation endpoints,
(1) the committed interpolation writes only to slices strictly between
`s0` and `s1`; (2) the preview recomputation never touches the committed
store at all; (3) the preview store receives entries only at slices
strictly inside some adjacent seed pair; and (4) across the whole
committed interpolation every seed slice of the current ROI — in
particular the endpoints of every pair — keeps its mask unchanged. -/
theorem C7_interpolation_endpoints_unchanged :
    (∀ (sm : SliceMasks) (s0 s1 z : Nat), ¬(s0 < z ∧ z < s1) →
      alookup (performSmart sm s0 s1).1 z = alookup sm z) ∧
    (∀ st : EditorState, (recomputePreview st).roi_masks = st.roi_masks) ∧
    (∀ (sm : SliceMasks) (z : Nat),
      (∀ p ∈ consecPairs (seedSlices sm), ¬(p.1 < z ∧ z < p.2)) →
      alookup (fillPreviewPairs sm (consecPairs (seedSlices sm))) z = none) ∧
    (∀ (st : EditorState) (sm0 : SliceMasks) (s : Nat),
      alookup st.roi_masks st.current_roi_name = some sm0 →
      s ∈ seedSlices sm0 →
      lookup2 (interpolateAll st).1.roi_masks st.current_roi_name s
        = lookup2 st.roi_masks st.current_roi_name s) :=
  ⟨performSmart_frame,
   fun st => (recomputePreview_fields st).1,
   fun sm z h => fillPreviewPairs_none sm _ z h,
   interpolateAll_preserves_seeds⟩

/-! ## Preservation of the no-empty-mask invariant: store primitives -/

theorem smOk_nil : smOk [] = true := rfl

theorem smOk_alookup {sm : SliceMasks} (h : smOk sm = true) {z : Nat} {m : Mask}
    (hm : alookup sm z = some m) : anyTrue m = true := by
  rw [smOk, List.all_eq_true] at h
  exact h (z, m) (alookup_mem _ _ _ hm)

theorem storeOk_alookup {rm : RoiMasks} (h : storeOk rm = true) {roi : RoiName}
    {sm : SliceMasks} (hm : alookup rm roi = some sm) : smOk sm = true := by
  rw [storeOk, List.all_eq_true] at h
  exact h (roi, sm) (alookup_mem _ _ _ hm)

theorem storeOk_lookup2 {rm : RoiMasks} (h : storeOk rm = true) {roi : RoiName}
    {z : Nat} {m : Mask} (hm : lookup2 rm roi z = some m) : anyTrue m = true := by
  unfold lookup2 at hm
  cases halt : alookup rm roi with
  | none => rw [halt] at hm; cases hm
  | some sm =>
      rw [halt] at hm
      exact smOk_alookup (storeOk_alookup h halt) hm

theorem priorOk_lookup2 {rm : RoiMasks} (h : storeOk rm = true) (roi : RoiName)
    (z : Nat) : priorOk (lookup2 rm roi z) = true := by
  cases hm : lookup2 rm roi z with
  | none => rfl
  | some m => simpa [priorOk] using storeOk_lookup2 h hm

theorem smOk_ainsert {sm : SliceMasks} (h : smOk sm = true) {z : Nat} {m : Mask}
    (hm : anyTrue m = true) : smOk (ainsert sm z m) = true := by
  rw [smOk, List.all_eq_true] at *
  intro x hx
  rcases mem_ainsert _ _ _ _ hx with rfl | hx
  · exact hm
  · exact h x hx

theorem smOk_aerase {sm : SliceMasks} (h : smOk sm = true) (z : Nat) :
    smOk (aerase sm z) = true := by
  rw [smOk, List.all_eq_true] at *
  intro x hx
  exact h x (mem_aerase _ _ _ hx)

theorem storeOk_ainsert {rm : RoiMasks} (h : storeOk rm = true) {roi : RoiName}
    {sm : SliceMasks} (hsm : smOk sm = true) : storeOk (ainsert rm roi sm) = true := by
  rw [storeOk, List.all_eq_true] at *
  intro x hx
  rcases mem_ainsert _ _ _ _ hx with rfl | hx
  · exact hsm
  · exact h x hx

theorem storeOk_ensureRoi {rm : RoiMasks} (h : storeOk rm = true) (roi : RoiName) :
    storeOk (ensureRoi rm roi) = true := by
  unfold ensureRoi
  cases halt : alookup rm roi with
  | none => exact storeOk_ainsert h smOk_nil
  | some sm => exact h

theorem smOk_ensureRoi_getD {rm : RoiMasks} (h : storeOk rm = true) (roi : RoiName) :
    smOk ((alookup (ensureRoi rm roi) roi).getD []) = true := by
  rw [alookup_ensureRoi_self]
  cases halt : alookup rm roi with
  | none => exact smOk_nil
  | some sm => exact storeOk_alookup h halt

theorem storeOk_applyTempMask {rm : RoiMasks} (h : storeOk rm = true)
    (roi : RoiName) (z : Nat) (temp : Mask) :
    storeOk (applyTempMask rm roi z temp) = true := by
  unfold applyTempMask
  have h1 := storeOk_ensureRoi h roi
  have hsm := smOk_ensureRoi_getD h roi
  dsimp only
  split
  · next ht => exact storeOk_ainsert h1 (smOk_ainsert hsm ht)
  · exact storeOk_ainsert h1 (smOk_aerase hsm z)

theorem storeOk_restoreMask {rm : RoiMasks} (h : storeOk rm = true)
    (roi : RoiName) (z : Nat) {prior : Option Mask} (hp : priorOk prior = true) :
    storeOk (restoreMask rm roi z prior) = true := by
  unfold restoreMask
  have h1 := storeOk_ensureRoi h roi
  have hsm := smOk_ensureRoi_getD h roi
  cases prior with
  | none => exact storeOk_ainsert h1 (smOk_aerase hsm z)
  | some m => exact storeOk_ainsert h1 (smOk_ainsert hsm (by simpa [priorOk] using hp))

/-! ## Preservation of the invariant by the engine operations -/

theorem all_entryOk_pushStack {st : List UndoEntry} (hs : st.all entryOk = true)
    {e : UndoEntry} (he : entryOk e = true) :
    (pushStack e st).all entryOk = true := by
  rw [pushStack_cons, List.all_cons, he, Bool.true_and, List.all_eq_true]
  rw [List.all_eq_true] at hs
  intro x hx
  exact hs x (List.take_subset _ _ hx)

theorem recomputePreview_drawing (st : EditorState) :
    (recomputePreview st).drawing = st.drawing := by
  unfold recomputePreview
  by_cases h : st.auto_preview_enabled
  · simp only [h]
    cases h' : alookup st.roi_masks st.current_roi_name with
    | none => simp
    | some sm =>
        by_cases h2 : (seedSlices sm).length < 2 <;> simp [h2]
  · simp [h]

theorem invOk_recomputePreview (st : EditorState) :
    invOk (recomputePreview st) = invOk st := by
  obtain ⟨h1, h2, h3, -, -⟩ := recomputePreview_fields st
  unfold invOk drawOk
  rw [h1, h2, h3, recomputePreview_drawing]

theorem foldl_groupStep_ok :
    ∀ (changes : List (RoiName × Nat × Option Mask))
      (acc : RoiMasks × List (RoiName × Nat × Option Mask)),
      storeOk acc.1 = true →
      acc.2.all (fun c => priorOk c.2.2) = true →
      changes.all (fun c => priorOk c.2.2) = true →
      storeOk (changes.foldl groupStep acc).1 = true ∧
        (changes.foldl groupStep acc).2.all (fun c => priorOk c.2.2) = true := by
  intro changes
  induction changes with
  | nil => intro acc h1 h2 _; exact ⟨h1, h2⟩
  | cons c cs ih =>
      intro acc h1 h2 hall
      rw [List.all_cons, Bool.and_eq_true] at hall
      rw [List.foldl_cons]
      apply ih
      · exact storeOk_restoreMask h1 c.1 c.2.1 hall.1
      · show ((acc.2 ++ [(c.1, c.2.1, lookup2 acc.1 c.1 c.2.1)]).all
          fun c => priorOk c.2.2) = true
        rw [List.all_append, Bool.and_eq_true]
        exact ⟨h2, by simpa using priorOk_lookup2 h1 c.1 c.2.1⟩
      · exact hall.2

theorem invOk_undo (st : EditorState) (h : invOk st = true) :
    invOk (undo st) = true := by
  unfold invOk at h
  simp only [Bool.and_eq_true] at h
  obtain ⟨⟨⟨hstore, hundo⟩, hredo⟩, hdraw⟩ := h
  unfold undo
  cases hstack : st.undo_stack with
  | nil =>
      unfold invOk
      simp only [Bool.and_eq_true]
      exact ⟨⟨⟨hstore, hstack ▸ hundo⟩, hredo⟩, hdraw⟩
  | cons e rest =>
      rw [hstack] at hundo
      rw [List.all_cons, Bool.and_eq_true] at hundo
      obtain ⟨he, hrest⟩ := hundo
      cases e with
      | single roi z prior =>
          rw [invOk_recomputePreview]
          unfold invOk drawOk
          simp only [Bool.and_eq_true]
          refine ⟨⟨⟨?_, hrest⟩, ?_⟩, ?_⟩
          · exact storeOk_restoreMask hstore roi z he
          · exact all_entryOk_pushStack hredo (by
              simpa [entryOk] using priorOk_lookup2 hstore roi z)
          · exact hdraw
      | group changes =>
          rw [invOk_recomputePreview]
          unfold invOk drawOk
          simp only [Bool.and_eq_true]
          obtain ⟨g1, g2⟩ := foldl_groupStep_ok changes (st.roi_masks, []) hstore rfl
            (by simpa [entryOk] using he)
          refine ⟨⟨⟨g1, hrest⟩, ?_⟩, hdraw⟩
          exact all_entryOk_pushStack hredo (by simpa [entryOk] using g2)

theorem invOk_redo (st : EditorState) (h : invOk st = true) :
    invOk (redo st) = true := by
  unfold invOk at h
  simp only [Bool.and_eq_true] at h
  obtain ⟨⟨⟨hstore, hundo⟩, hredo⟩, hdraw⟩ := h
  unfold redo
  cases hstack : st.redo_stack with
  | nil =>
      unfold invOk
      simp only [Bool.and_eq_true]
      exact ⟨⟨⟨hstore, hundo⟩, hstack ▸ hredo⟩, hdraw⟩
  | cons e rest =>
      rw [hstack] at hredo
      rw [List.all_cons, Bool.and_eq_true] at hredo
      obtain ⟨he, hrest⟩ := hredo
      cases e with
      | single roi z next =>
          rw [invOk_recomputePreview]
          unfold invOk drawOk
          simp only [Bool.and_eq_true]
          refine ⟨⟨⟨?_, ?_⟩, hrest⟩, ?_⟩
          · exact storeOk_restoreMask hstore roi z he
          · exact all_entryOk_pushStack hundo (by
              simpa [entryOk] using priorOk_lookup2 hstore roi z)
          · exact hdraw
      | group changes =>
          rw [invOk_recomputePreview]
          unfold invOk drawOk
          simp only [Bool.and_eq_true]
          obtain ⟨g1, g2⟩ := foldl_groupStep_ok changes (st.roi_masks, []) hstore rfl
            (by simpa [entryOk] using he)
          refine ⟨⟨⟨g1, ?_⟩, hrest⟩, hdraw⟩
          exact all_entryOk_pushStack hundo (by simpa [entryOk] using g2)

theorem smOk_getD {rm : RoiMasks} (h : storeOk rm = true) (roi : RoiName) :
    smOk ((alookup rm roi).getD []) = true := by
  cases halt : alookup rm roi with
  | none => exact smOk_nil
  | some sm => exact storeOk_alookup h halt

theorem storeOk_aerase {rm : RoiMasks} (h : storeOk rm = true) (roi : RoiName) :
    storeOk (aerase rm roi) = true := by
  rw [storeOk, List.all_eq_true] at *
  intro x hx
  exact h x (mem_aerase _ _ _ hx)

theorem foldl_smartStep_ok (m0 m1 : Mask) (s0 s1 : Nat) :
    ∀ (l : List Nat) (acc : SliceMasks × Nat × List (Nat × Option Mask)),
      smOk acc.1 = true → acc.2.2.all (fun c => priorOk c.2) = true →
      smOk (l.foldl (smartStep m0 m1 s0 s1) acc).1 = true ∧
        (l.foldl (smartStep m0 m1 s0 s1) acc).2.2.all (fun c => priorOk c.2) = true := by
  intro l
  induction l with
  | nil => intro acc h1 h2; exact ⟨h1, h2⟩
  | cons z t ih =>
      intro acc h1 h2
      rw [List.foldl_cons]
      have hprior : priorOk (alookup acc.1 z) = true := by
        cases hm : alookup acc.1 z with
        | none => rfl
        | some m => simpa [priorOk] using smOk_alookup h1 hm
      apply ih
      · unfold smartStep
        dsimp only
        split
        · next him => exact smOk_ainsert h1 him
        · split
          · exact smOk_aerase h1 z
          · exact h1
      · unfold smartStep
        dsimp only
        split
        · show ((acc.2.2 ++ [(z, alookup acc.1 z)]).all fun c => priorOk c.2) = true
          rw [List.all_append, Bool.and_eq_true]
          exact ⟨h2, by simpa using hprior⟩
        · split
          · show ((acc.2.2 ++ [(z, alookup acc.1 z)]).all fun c => priorOk c.2) = true
            rw [List.all_append, Bool.and_eq_true]
            exact ⟨h2, by simpa using hprior⟩
          · exact h2

theorem performSmart_ok (sm : SliceMasks) (s0 s1 : Nat) (h : smOk sm = true) :
    smOk (performSmart sm s0 s1).1 = true ∧
      (performSmart sm s0 s1).2.2.all (fun c => priorOk c.2) = true := by
  unfold performSmart
  cases alookup sm s0 with
  | none => exact ⟨h, rfl⟩
  | some m0 =>
      cases alookup sm s1 with
      | none => exact ⟨h, rfl⟩
      | some m1 =>
          dsimp only
          split
          · exact foldl_smartStep_ok m0 m1 s0 s1 _ (sm, 0, []) h rfl
          · exact ⟨h, rfl⟩

theorem foldl_allPairsStep_ok (roi : RoiName) :
    ∀ (pairs : List (Nat × Nat))
      (acc : SliceMasks × Nat × List (RoiName × Nat × Option Mask)),
      smOk acc.1 = true → acc.2.2.all (fun c => priorOk c.2.2) = true →
      smOk (pairs.foldl (allPairsStep roi) acc).1 = true ∧
        (pairs.foldl (allPairsStep roi) acc).2.2.all (fun c => priorOk c.2.2) = true := by
  intro pairs
  induction pairs with
  | nil => intro acc h1 h2; exact ⟨h1, h2⟩
  | cons p t ih =>
      intro acc h1 h2
      rw [List.foldl_cons]
      obtain ⟨q1, q2⟩ := performSmart_ok acc.1 p.1 p.2 h1
      apply ih
      · unfold allPairsStep
        dsimp only
        split
        · exact q1
        · exact h1
      · unfold allPairsStep
        dsimp only
        split
        · show ((acc.2.2 ++ (performSmart acc.1 p.1 p.2).2.2.map
              (fun c => (roi, c.1, c.2))).all fun c => priorOk c.2.2) = true
          rw [List.all_append, Bool.and_eq_true]
          refine ⟨h2, ?_⟩
          rw [List.all_eq_true]
          intro x hx
          obtain ⟨c, hc, rfl⟩ := List.mem_map.mp hx
          rw [List.all_eq_true] at q2
          exact q2 c hc
        · exact h2

theorem invOk_interpolateAll (st : EditorState) (h : invOk st = true) :
    invOk (interpolateAll st).1 = true := by
  unfold interpolateAll
  cases halt : alookup st.roi_masks st.current_roi_name with
  | none => exact h
  | some sm0 =>
      dsimp only
      split
      · exact h
      · unfold invOk at h
        simp only [Bool.and_eq_true] at h
        obtain ⟨⟨⟨hstore, hundo⟩, -⟩, hdraw⟩ := h
        obtain ⟨f1, f2⟩ := foldl_allPairsStep_ok st.current_roi_name
          (consecPairs (seedSlices sm0)) (sm0, 0, []) (storeOk_alookup hstore halt) rfl
        rw [invOk_recomputePreview]
        split
        · unfold invOk drawOk
          simp only [Bool.and_eq_true]
          refine ⟨⟨⟨storeOk_ainsert hstore f1, ?_⟩, rfl⟩, hdraw⟩
          exact all_entryOk_pushStack hundo (by simpa [entryOk] using f2)
        · unfold invOk drawOk
          simp only [Bool.and_eq_true]
          exact ⟨⟨⟨storeOk_ainsert hstore f1, hundo⟩, rfl⟩, hdraw⟩

theorem foldl_confirmStep_ok (roi : RoiName) :
    ∀ (l : List (Nat × Mask))
      (acc : RoiMasks × List (RoiName × Nat × Option Mask) × Nat),
      storeOk acc.1 = true → acc.2.1.all (fun c => priorOk c.2.2) = true →
      storeOk (l.foldl (confirmStep roi) acc).1 = true ∧
        (l.foldl (confirmStep roi) acc).2.1.all (fun c => priorOk c.2.2) = true := by
  intro l
  induction l with
  | nil => intro acc h1 h2; exact ⟨h1, h2⟩
  | cons p t ih =>
      intro acc h1 h2
      rw [List.foldl_cons]
      apply ih
      · unfold confirmStep
        dsimp only
        by_cases hnp : anyTrue p.2
        · rw [if_neg (by simp [hnp])]
          cases hex : alookup ((alookup acc.1 roi).getD []) p.1 with
          | some ex =>
              dsimp only
              by_cases hax : anyTrue ex
              · rw [if_pos hax]
                exact h1
              · exact absurd (smOk_alookup (smOk_getD h1 roi) hex) hax
          | none =>
              dsimp only
              exact storeOk_ainsert h1 (smOk_ainsert (smOk_getD h1 roi) hnp)
        · rw [if_pos (by simp [hnp])]
          exact h1
      · unfold confirmStep
        dsimp only
        by_cases hnp : anyTrue p.2
        · rw [if_neg (by simp [hnp])]
          cases hex : alookup ((alookup acc.1 roi).getD []) p.1 with
          | some ex =>
              dsimp only
              by_cases hax : anyTrue ex
              · rw [if_pos hax]
                exact h2
              · exact absurd (smOk_alookup (smOk_getD h1 roi) hex) hax
          | none =>
              dsimp only
              show ((acc.2.1 ++ [(roi, p.1, none)]).all fun c => priorOk c.2.2) = true
              rw [List.all_append, Bool.and_eq_true]
              exact ⟨h2, rfl⟩
        · rw [if_pos (by simp [hnp])]
          exact h2

theorem invOk_confirmPreviewToRoi (st : EditorState) (h : invOk st = true) :
    invOk (confirmPreviewToRoi st).1 = true := by
  unfold confirmPreviewToRoi
  dsimp only
  split
  · exact h
  · unfold invOk at h
    simp only [Bool.and_eq_true] at h
    obtain ⟨⟨⟨hstore, hundo⟩, -⟩, hdraw⟩ := h
    obtain ⟨f1, f2⟩ := foldl_confirmStep_ok st.current_roi_name
      (List.insertionSort (fun a b => a.1 ≤ b.1) st.preview_masks)
      (ensureRoi st.roi_masks st.current_roi_name, [], 0)
      (storeOk_ensureRoi hstore st.current_roi_name) rfl
    unfold invOk drawOk
    simp only [Bool.and_eq_true]
    refine ⟨⟨⟨f1, ?_⟩, rfl⟩, hdraw⟩
    split
    · exact all_entryOk_pushStack hundo (by simpa [entryOk] using f2)
    · exact hundo

theorem invOk_confirmPreviewCurrentSlice (st : EditorState) (h : invOk st = true) :
    invOk (confirmPreviewCurrentSlice st).1 = true := by
  unfold confirmPreviewCurrentSlice
  dsimp only
  split
  · exact h
  · split
    · exact h
    · next pmask heq =>
        split
        · exact h
        · next hne =>
            unfold invOk at h
            simp only [Bool.and_eq_true] at h
            obtain ⟨⟨⟨hstore, hundo⟩, -⟩, hdraw⟩ := h
            have hpm : anyTrue pmask = true := by
              revert hne
              cases anyTrue pmask <;> simp
            unfold invOk drawOk
            simp only [Bool.and_eq_true]
            refine ⟨⟨⟨?_, ?_⟩, rfl⟩, hdraw⟩
            · exact storeOk_ainsert (storeOk_ensureRoi hstore st.current_roi_name)
                (smOk_ainsert (smOk_ensureRoi_getD hstore st.current_roi_name) hpm)
            · refine all_entryOk_pushStack hundo ?_
              show priorOk (alookup ((alookup (ensureRoi st.roi_masks
                st.current_roi_name) st.current_roi_name).getD []) st.current_axial) = true
              cases hm : alookup ((alookup (ensureRoi st.roi_masks
                  st.current_roi_name) st.current_roi_name).getD []) st.current_axial with
              | none => rfl
              | some m =>
                  simpa [priorOk] using
                    smOk_alookup (smOk_ensureRoi_getD hstore st.current_roi_name) hm

theorem invOk_startDrawing (st : EditorState) (row col : Int) (shift : Bool)
    (h : invOk st = true) : invOk (startDrawing st row col shift) = true := by
  unfold startDrawing
  split
  · unfold invOk at h
    simp only [Bool.and_eq_true] at h
    obtain ⟨⟨⟨hstore, hundo⟩, -⟩, -⟩ := h
    unfold invOk drawOk
    simp only [Bool.and_eq_true]
    refine ⟨⟨⟨?_, hundo⟩, rfl⟩, ?_⟩
    · exact storeOk_applyTempMask hstore _ _ _
    · exact priorOk_lookup2 hstore st.current_roi_name st.current_axial
  · exact h

theorem invOk_continueDrawing (st : EditorState) (row col : Int) (shift : Bool)
    (h : invOk st = true) : invOk (continueDrawing st row col shift) = true := by
  unfold continueDrawing
  cases hds : st.drawing with
  | none => exact h
  | some ds =>
      unfold invOk drawOk at h
      rw [hds] at h
      simp only [Bool.and_eq_true] at h
      obtain ⟨⟨⟨hstore, hundo⟩, hredo⟩, hdraw⟩ := h
      dsimp only
      split
      · unfold invOk drawOk
        simp only [Bool.and_eq_true]
        exact ⟨⟨⟨storeOk_applyTempMask hstore _ _ _, hundo⟩, hredo⟩, hdraw⟩
      · unfold invOk drawOk
        simp only [Bool.and_eq_true]
        exact ⟨⟨⟨hstore, hundo⟩, hredo⟩, hdraw⟩

theorem invOk_finishDrawing (st : EditorState) (h : invOk st = true) :
    invOk (finishDrawing st) = true := by
  unfold finishDrawing
  cases hds : st.drawing with
  | none => exact h
  | some ds =>
      unfold invOk drawOk at h
      rw [hds] at h
      simp only [Bool.and_eq_true] at h
      obtain ⟨⟨⟨hstore, hundo⟩, hredo⟩, hdraw⟩ := h
      dsimp only
      split
      · rw [invOk_recomputePreview]
        unfold invOk drawOk
        simp only [Bool.and_eq_true]
        refine ⟨⟨⟨storeOk_applyTempMask hstore _ _ _, ?_⟩, hredo⟩, trivial⟩
        exact all_entryOk_pushStack hundo (by simpa [entryOk] using hdraw)
      · unfold invOk drawOk
        simp only [Bool.and_eq_true]
        refine ⟨⟨⟨storeOk_applyTempMask hstore _ _ _, ?_⟩, hredo⟩, trivial⟩
        exact all_entryOk_pushStack hundo (by simpa [entryOk] using hdraw)

theorem invOk_strokeCommit (st : EditorState) (row col : Int) (shift : Bool)
    (moves : List MoveEvt) (h : invOk st = true) :
    invOk (strokeCommit st row col shift moves) = true := by
  unfold strokeCommit
  apply invOk_finishDrawing
  have : ∀ (mvs : List MoveEvt) (s : EditorState), invOk s = true →
      invOk (mvs.foldl (fun s mv => continueDrawing s mv.row mv.col mv.shift) s) = true := by
    intro mvs
    induction mvs with
    | nil => intro s hs; exact hs
    | cons mv t ih =>
        intro s hs
        rw [List.foldl_cons]
        exact ih _ (invOk_continueDrawing s mv.row mv.col mv.shift hs)
  exact this moves _ (invOk_startDrawing st row col shift h)

theorem invOk_changeRoiName (st : EditorState) (entered : String)
    (h : invOk st = true) : invOk (changeRoiName st entered) = true := by
  unfold changeRoiName
  split
  · exact h
  · dsimp only
    split
    · exact h
    · split
      · exact h
      · unfold invOk at h
        simp only [Bool.and_eq_true] at h
        obtain ⟨⟨⟨hstore, hundo⟩, hredo⟩, hdraw⟩ := h
        unfold invOk drawOk
        simp only [Bool.and_eq_true]
        refine ⟨⟨⟨?_, hundo⟩, hredo⟩, hdraw⟩
        cases halt : alookup st.roi_masks st.current_roi_name with
        | none => exact hstore
        | some sm =>
            exact storeOk_ainsert (storeOk_aerase hstore st.current_roi_name)
              (storeOk_alookup hstore halt)

theorem invOk_updateAxialSlice (st : EditorState) (z : Nat)
    (h : invOk st = true) : invOk (updateAxialSlice st z) = true := by
  unfold updateAxialSlice
  split
  · exact h
  · unfold invOk at h
    simp only [Bool.and_eq_true] at h
    obtain ⟨⟨⟨hstore, hundo⟩, hredo⟩, -⟩ := h
    unfold invOk drawOk
    simp only [Bool.and_eq_true]
    exact ⟨⟨⟨hstore, hundo⟩, hredo⟩, trivial⟩

/-- Any of the engine's mutating operations preserves the invariant. -/
theorem invOk_applyOp (st : EditorState) (op : EditOp) (h : invOk st = true) :
    invOk (applyOp st op) = true := by
  cases op with
  | stroke row col shift moves => exact invOk_strokeCommit st row col shift moves h
  | interpolate => exact invOk_interpolateAll st h
  | undoOp => exact invOk_undo st h
  | redoOp => exact invOk_redo st h
  | confirmAll => exact invOk_confirmPreviewToRoi st h
  | confirmSlice => exact invOk_confirmPreviewCurrentSlice st h
  | rename n => exact invOk_changeRoiName st n h
  | setAxial z => exact invOk_updateAxialSlice st z h

/-! ## Claim C2 -/

/-- C2: a mutation that leaves a (ROI, slice) mask entirely false deletes
the stored entry (the working-mask write stores `none` for an all-false
mask), every engine operation (stroke commit — brush or eraser —
interpolation, undo, redo, preview promotion, rename, slice change)
preserves the no-empty-mask invariant, and hence after any operation no
all-false Mask2D is present anywhere in the MaskStore. -/
theorem C2_empty_never_stored :
    (∀ (rm : RoiMasks) (roi : RoiName) (z : Nat) (temp : Mask),
      anyTrue temp = false →
      lookup2 (applyTempMask rm roi z temp) roi z = none) ∧
    (∀ (st : EditorState) (op : EditOp), invOk st = true →
      invOk (applyOp st op) = true) ∧
    (∀ (st : EditorState) (op : EditOp), invOk st = true →
      ∀ (roi : RoiName) (z : Nat) (m : Mask),
        lookup2 (applyOp st op).roi_masks roi z = some m → anyTrue m = true) := by
  refine ⟨?_, invOk_applyOp, ?_⟩
  · intro rm roi z temp ht
    rw [lookup2_applyTempMask_self, if_neg (by simp [ht])]
  · intro st op h roi z m hm
    have h2 := invOk_applyOp st op h
    unfold invOk at h2
    simp only [Bool.and_eq_true] at h2
    exact storeOk_lookup2 h2.1.1.1 hm

/-- Witness for C2: the all-false write deletes, and the invariant is
preserved by an operation on a concrete state. -/
theorem C2_empty_never_stored_witness :
    lookup2 (applyTempMask [] "R" 0 [[false]]) "R" 0 = none ∧
    invOk (applyOp stW1 .undoOp) = true :=
  ⟨C2_empty_never_stored.1 [] "R" 0 [[false]] (by decide),
   C2_empty_never_stored.2.1 stW1 .undoOp (by decide)⟩

/-! ## Promotion semantics (claim C4) -/

theorem lookup2_ensureRoi (rm : RoiMasks) (roi roi' : RoiName) (z : Nat) :
    lookup2 (ensureRoi rm roi) roi' z = lookup2 rm roi' z := by
  unfold lookup2
  by_cases hr : roi' = roi
  · subst hr
    rw [alookup_ensureRoi_self]
    cases ha : alookup rm roi' with
    | none => simp [alookup]
    | some sm => simp
  · rw [alookup_ensureRoi_ne _ _ _ hr]

theorem lookup2_ensureRoi_getD (rm : RoiMasks) (roi : RoiName) (z : Nat) :
    alookup ((alookup (ensureRoi rm roi) roi).getD []) z = lookup2 rm roi z := by
  rw [alookup_ensureRoi_self]
  unfold lookup2
  cases ha : alookup rm roi with
  | none => simp [alookup]
  | some sm => simp

theorem confirmStep_keeps (roi : RoiName) (z : Nat) (m : Mask)
    (acc : RoiMasks × List (RoiName × Nat × Option Mask) × Nat) (p : Nat × Mask)
    (hm : anyTrue m = true) (h : lookup2 acc.1 roi z = some m) :
    lookup2 (confirmStep roi acc p).1 roi z = some m := by
  have hsm : alookup acc.1 roi = some ((alookup acc.1 roi).getD []) := by
    unfold lookup2 at h
    cases ha : alookup acc.1 roi with
    | none => rw [ha] at h; cases h
    | some sm => simp [ha]
  have hlook : alookup ((alookup acc.1 roi).getD []) z = some m := by
    unfold lookup2 at h
    cases ha : alookup acc.1 roi with
    | none => rw [ha] at h; cases h
    | some sm => rw [ha] at h; simpa using h
  unfold confirmStep
  dsimp only
  by_cases hnp : anyTrue p.2
  · rw [if_neg (by simp [hnp])]
    cases hex : alookup ((alookup acc.1 roi).getD []) p.1 with
    | some ex =>
        dsimp only
        by_cases hax : anyTrue ex
        · rw [if_pos hax]
          exact h
        · by_cases hz : p.1 = z
          · exfalso
            apply hax
            rw [hz, hlook] at hex
            cases hex
            exact hm
          · rw [if_neg hax]
            dsimp only
            unfold lookup2
            rw [alookup_ainsert_self]
            simpa [alookup_ainsert_ne _ _ _ _ (fun hh => hz hh.symm)] using hlook
    | none =>
        dsimp only
        have hz : p.1 ≠ z := by
          intro hh
          rw [hh, hlook] at hex
          cases hex
        unfold lookup2
        rw [alookup_ainsert_self]
        simpa [alookup_ainsert_ne _ _ _ _ (fun hh => hz hh.symm)] using hlook
  · rw [if_pos (by simp [hnp])]
    exact h

theorem foldl_confirmStep_keeps (roi : RoiName) (z : Nat) (m : Mask)
    (hm : anyTrue m = true) :
    ∀ (l : List (Nat × Mask))
      (acc : RoiMasks × List (RoiName × Nat × Option Mask) × Nat),
      lookup2 acc.1 roi z = some m →
      lookup2 (l.foldl (confirmStep roi) acc).1 roi z = some m := by
  intro l
  induction l with
  | nil => intro acc h; exact h
  | cons p t ih =>
      intro acc h
      rw [List.foldl_cons]
      exact ih _ (confirmStep_keeps roi z m acc p hm h)

/-! ## Claim C4 -/

/-- C4: promoting the whole preview (`confirm_preview_to_roi`) never
changes a slice that already holds a non-empty committed mask for the
current ROI and always leaves the preview store empty, whereas promoting
a single slice (`confirm_preview_current_slice`) overwrites the committed
mask at the current slice with the preview mask and records a single-slice
undo entry holding the previous committed value. -/
theorem C4_promote_respects_committed :
    (∀ (st : EditorState) (z : Nat) (m : Mask),
      lookup2 st.roi_masks st.current_roi_name z = some m → anyTrue m = true →
      lookup2 (confirmPreviewToRoi st).1.roi_masks st.current_roi_name z = some m) ∧
    (∀ st : EditorState, (confirmPreviewToRoi st).1.preview_masks = []) ∧
    (∀ (st : EditorState) (pmask : Mask),
      alookup st.preview_masks st.current_axial = some pmask →
      anyTrue pmask = true →
      lookup2 (confirmPreviewCurrentSlice st).1.roi_masks st.current_roi_name
          st.current_axial = some pmask ∧
      (confirmPreviewCurrentSlice st).1.undo_stack =
        pushStack (.single st.current_roi_name st.current_axial
          (lookup2 st.roi_masks st.current_roi_name st.current_axial))
          st.undo_stack) := by
  refine ⟨?_, ?_, ?_⟩
  · intro st z m hm hne
    unfold confirmPreviewToRoi
    dsimp only
    split
    · next hemp =>
        exact hm
    · apply foldl_confirmStep_keeps _ _ _ hne
      rw [lookup2_ensureRoi]
      exact hm
  · intro st
    unfold confirmPreviewToRoi
    dsimp only
    split
    · next hemp =>
        exact List.isEmpty_iff.mp hemp
    · rfl
  · intro st pmask hp hne
    have hnonempty : st.preview_masks.isEmpty = false := by
      cases hpm : st.preview_masks with
      | nil => rw [hpm] at hp; cases hp
      | cons a t => rfl
    unfold confirmPreviewCurrentSlice
    simp only [hnonempty, hp, hne, Bool.not_true, Bool.false_eq_true, if_false]
    refine ⟨?_, ?_⟩
    · simp [lookup2, alookup_ainsert_self]
    · simp [lookup2_ensureRoi_getD]

/-- Witness for C4: a state with a committed non-empty mask at slice 2 and
previews at slices 1 and 2; full promotion keeps slice 2, clears the
preview, and single-slice promotion overwrites slice 2. -/
theorem C4_promote_respects_committed_witness :
    lookup2 (confirmPreviewToRoi stC4).1.roi_masks "R" 2 = some [[true]] ∧
    (confirmPreviewToRoi stC4).1.preview_masks = [] ∧
    lookup2 (confirmPreviewCurrentSlice stC4).1.roi_masks "R" 2 = some [[false, true]] ∧
    (confirmPreviewCurrentSlice stC4).1.undo_stack =
      pushStack (.single "R" 2 (some [[true]])) stC4.undo_stack :=
  ⟨C4_promote_respects_committed.1 stC4 2 [[true]] (by decide) (by decide),
   C4_promote_respects_committed.2.1 stC4,
   (C4_promote_respects_committed.2.2 stC4 [[false, true]] (by decide) (by decide)).1,
   (C4_promote_respects_committed.2.2 stC4 [[false, true]] (by decide) (by decide)).2⟩

/-! ## Claim C9 -/

/-- C9: renaming the current ROI to a name that already exists mutates
nothing (store, color map, visibility map and current name are all
unchanged), while renaming to a fresh non-empty name transplants the
masks, the color and the visibility from the old key to the new key and
removes the old key. -/
theorem C9_rename_roi :
    (∀ (st : EditorState) (newName : String),
      (alookup st.roi_color_map newName).isSome = true →
      changeRoiName st newName = st) ∧
    (∀ (st : EditorState) (newName : String),
      st.game_lock_roi = false →
      newName ≠ "" →
      newName ≠ st.current_roi_name →
      alookup st.roi_color_map newName = none →
      alookup st.roi_masks newName = none →
      (changeRoiName st newName).current_roi_name = newName ∧
      alookup (changeRoiName st newName).roi_masks newName
        = alookup st.roi_masks st.current_roi_name ∧
      alookup (changeRoiName st newName).roi_masks st.current_roi_name = none ∧
      alookup (changeRoiName st newName).roi_color_map newName
        = alookup st.roi_color_map st.current_roi_name ∧
      alookup (changeRoiName st newName).roi_color_map st.current_roi_name = none ∧
      alookup (changeRoiName st newName).roi_visibility newName
        = some ((alookup st.roi_visibility st.current_roi_name).getD true) ∧
      alookup (changeRoiName st newName).roi_visibility st.current_roi_name = none) := by
  constructor
  · intro st newName hex
    unfold changeRoiName
    split
    · rfl
    · dsimp only
      split
      · rfl
      · rfl
  · intro st newName hlock hne1 hne2 hcolor hmasks
    have hres : changeRoiName st newName =
        { st with
          roi_masks :=
            match alookup st.roi_masks st.current_roi_name with
            | some sm => ainsert (aerase st.roi_masks st.current_roi_name) newName sm
            | none => st.roi_masks,
          roi_color_map :=
            match alookup st.roi_color_map st.current_roi_name with
            | some c => ainsert (aerase st.roi_color_map st.current_roi_name) newName c
            | none => st.roi_color_map,
          roi_visibility := ainsert (aerase st.roi_visibility st.current_roi_name)
            newName ((alookup st.roi_visibility st.current_roi_name).getD true),
          current_roi_name := newName } := by
      unfold changeRoiName
      simp only [hlock, Bool.false_eq_true, if_false]
      rw [if_neg (by simp [hne1, hne2]), if_neg (by simp [hcolor])]
    have hback : st.current_roi_name ≠ newName := fun hh => hne2 hh.symm
    rw [hres]
    refine ⟨rfl, ?_, ?_, ?_, ?_, ?_, ?_⟩
    · dsimp only
      cases hm : alookup st.roi_masks st.current_roi_name with
      | none => exact hmasks
      | some sm => rw [alookup_ainsert_self]
    · dsimp only
      cases hm : alookup st.roi_masks st.current_roi_name with
      | none => exact hm
      | some sm =>
          rw [alookup_ainsert_ne _ _ _ _ hback, alookup_aerase_self]
    · dsimp only
      cases hm : alookup st.roi_color_map st.current_roi_name with
      | none => exact hcolor
      | some c => rw [alookup_ainsert_self]
    · dsimp only
      cases hm : alookup st.roi_color_map st.current_roi_name with
      | none => exact hm
      | some c =>
          rw [alookup_ainsert_ne _ _ _ _ hback, alookup_aerase_self]
    · dsimp only
      rw [alookup_ainsert_self]
    · dsimp only
      rw [alookup_ainsert_ne _ _ _ _ hback, alookup_aerase_self]

/-- Witness for C9: renaming "R" to the existing name "R" (and to itself)
is rejected unchanged; renaming to the fresh name "Liver" transplants the
color-map entry. -/
theorem C9_rename_roi_witness :
    changeRoiName stW1 "R" = stW1 ∧
    (changeRoiName stW1 "Liver").current_roi_name = "Liver" ∧
    alookup (changeRoiName stW1 "Liver").roi_color_map "Liver" = some "red" ∧
    alookup (changeRoiName stW1 "Liver").roi_color_map "R" = none := by
  have h1 := C9_rename_roi.1 stW1 "R" (by decide)
  have h2 := C9_rename_roi.2 stW1 "Liver" (by decide) (by decide) (by decide)
    (by decide) (by decide)
  exact ⟨h1, h2.1, h2.2.2.2.1.trans (by decide), h2.2.2.2.2.1⟩

/-! ## Pixel-level lemmas for the brush footprint (claim C10) -/

theorem getD_set_ne {α : Type} (l : List α) (n i : Nat) (a d : α) (h : n ≠ i) :
    (l.set n a).getD i d = l.getD i d := by
  induction l generalizing n i with
  | nil => rfl
  | cons x t ih =>
      cases n with
      | zero =>
          cases i with
          | zero => exact absurd rfl h
          | succ i' => rfl
      | succ n' =>
          cases i with
          | zero => rfl
          | succ i' => exact ih n' i' (fun hh => h (by rw [hh]))

theorem getD_set_self {α : Type} (l : List α) (n : Nat) (a d : α) :
    (l.set n a).getD n d = if n < l.length then a else l.getD n d := by
  induction l generalizing n with
  | nil => simp [List.set]
  | cons x t ih =>
      cases n with
      | zero => simp
      | succ n' => simpa using ih n'

theorem getPix_setPix_ne (m : Mask) (a b : Nat) (v : Bool) (i j : Int)
    (h : ¬(i = (a : Int) ∧ j = (b : Int))) :
    getPix (setPix m a b v) i j = getPix m i j := by
  unfold getPix setPix
  by_cases hneg : i < 0 ∨ j < 0
  · rw [if_pos hneg, if_pos hneg]
  · rw [if_neg hneg, if_neg hneg]
    push_neg at hneg
    by_cases hia : i.toNat = a
    · have hjb : j.toNat ≠ b := fun hh => h ⟨by omega, by omega⟩
      rw [hia, getD_set_self]
      split
      · rw [getD_set_ne _ _ _ _ _ (fun hh => hjb hh.symm)]
      · rfl
    · rw [getD_set_ne _ _ _ _ _ (fun hh => hia hh.symm)]

theorem drawWritePts_spec (m : Mask) (r c : Int) (size : Nat) (p : Int × Int)
    (hp : p ∈ drawWritePts m r c size) :
    0 ≤ p.1 ∧ p.1 < (mheight m : Int) ∧ 0 ≤ p.2 ∧ p.2 < (mwidth m : Int) ∧
      (p.1 - r) * (p.1 - r) + (p.2 - c) * (p.2 - c) ≤ (size : Int) * size := by
  unfold drawWritePts at hp
  rw [List.mem_filter] at hp
  obtain ⟨hmem, hbound⟩ := hp
  have hb := of_decide_eq_true hbound
  obtain ⟨o, ho, rfl⟩ := List.mem_map.mp hmem
  refine ⟨hb.1, hb.2.1, hb.2.2.1, hb.2.2.2, ?_⟩
  dsimp only
  rw [add_sub_cancel_right, add_sub_cancel_right]
  unfold kernelFor at ho
  split at ho
  · unfold diskOffsets at ho
    rw [List.mem_filter] at ho
    exact of_decide_eq_true ho.2
  · simp only [List.mem_singleton] at ho
    rw [ho]
    simpa using mul_self_nonneg (size : Int)

theorem foldl_setPix_frame (v : Bool) (i j : Int) :
    ∀ (pts : List (Int × Int)) (m0 : Mask),
      (∀ p ∈ pts, 0 ≤ p.1 ∧ 0 ≤ p.2) → (i, j) ∉ pts →
      getPix (pts.foldl (fun m p => setPix m p.1.toNat p.2.toNat v) m0) i j
        = getPix m0 i j := by
  intro pts
  induction pts with
  | nil => intro m0 _ _; rfl
  | cons p t ih =>
      intro m0 hnn hij
      rw [List.foldl_cons, ih _ (fun q hq => hnn q (by simp [hq]))
        (fun hc => hij (by simp [hc]))]
      apply getPix_setPix_ne
      rintro ⟨hi, hj⟩
      apply hij
      have hp := hnn p (by simp)
      have : (i, j) = p := by
        obtain ⟨p1, p2⟩ := p
        simp only at hp hi hj
        rw [Int.toNat_of_nonneg hp.1] at hi
        rw [Int.toNat_of_nonneg hp.2] at hj
        rw [hi, hj]
      simp [this]

/-! ## Claim C10 -/

/-- C10: for an in-bounds stroke point and any footprint size, the stamp
writes only pixels whose row and column lie inside the `h × w` grid —
footprint offsets falling outside the grid (negative included) are
filtered out before writing, every written pixel lies within the disk of
the footprint radius around the centre, every other pixel keeps its
value, and a stamp at an out-of-bounds centre changes nothing. -/
theorem C10_stamp_stays_in_bounds :
    (∀ (m : Mask) (r c : Int) (size : Nat) (p : Int × Int),
      p ∈ drawWritePts m r c size →
      0 ≤ p.1 ∧ p.1 < (mheight m : Int) ∧ 0 ≤ p.2 ∧ p.2 < (mwidth m : Int) ∧
        (p.1 - r) * (p.1 - r) + (p.2 - c) * (p.2 - c) ≤ (size : Int) * size) ∧
    (∀ (m : Mask) (r c : Int) (size : Nat) (tool : ToolMode) (i j : Int),
      (i, j) ∉ drawWritePts m r c size →
      getPix (fastDrawAt m r c size tool) i j = getPix m i j) ∧
    (∀ (m : Mask) (r c : Int) (size : Nat) (tool : ToolMode),
      ¬(0 ≤ r ∧ r < (mheight m : Int) ∧ 0 ≤ c ∧ c < (mwidth m : Int)) →
      fastDrawAt m r c size tool = m) := by
  refine ⟨drawWritePts_spec, ?_, ?_⟩
  · intro m r c size tool i j hij
    unfold fastDrawAt
    split
    · exact foldl_setPix_frame _ i j _ m
        (fun q hq => ⟨(drawWritePts_spec m r c size q hq).1,
          (drawWritePts_spec m r c size q hq).2.2.1⟩) hij
    · rfl
  · intro m r c size tool hc
    unfold fastDrawAt
    rw [if_neg hc]

/-- Witness for C10: stamping a size-2 brush at the centre of a 3×3 grid
leaves the out-of-range pixel (0,5) and the whole mask at an
out-of-bounds centre unchanged. -/
theorem C10_stamp_stays_in_bounds_witness :
    getPix (fastDrawAt (zerosMask 3 3) 1 1 2 .brush) 0 5
      = getPix (zerosMask 3 3) 0 5 ∧
    fastDrawAt (zerosMask 3 3) 5 1 2 .brush = zerosMask 3 3 ∧
    (0 ≤ (1 : Int) ∧ (1 : Int) < (mheight (zerosMask 3 3) : Int) ∧
      0 ≤ (1 : Int) ∧ (1 : Int) < (mwidth (zerosMask 3 3) : Int) ∧
      ((1 : Int) - 1) * (1 - 1) + (1 - 1) * (1 - 1) ≤ (2 : Int) * 2) :=
  ⟨C10_stamp_stays_in_bounds.2.1 (zerosMask 3 3) 1 1 2 .brush 0 5 (by decide),
   C10_stamp_stays_in_bounds.2.2 (zerosMask 3 3) 5 1 2 .brush (by decide),
   C10_stamp_stays_in_bounds.1 (zerosMask 3 3) 1 1 2 (1, 1) (by decide)⟩

/-! ## Claim C5 -/

/-- C5 counterexample: the claim's pipeline radius `⌊toolRadius/2⌋` is
wrong at the reachable brush size 1 (the slider range is 1..30): the code
dilates/erodes by radius `max(1, 1 // 2) = 1`, not `0`. Ending the
nearly-closed ring stroke `ringGap5` with brush size 1 commits the
radius-1 pipeline's result, which differs from the pipeline the
specification describes. -/
theorem C5_contour_close_counterexample :
    lookup2 (finishDrawing stC5).roi_masks "A" 0
      = some (contourCloseCode ringGap5 (zerosMask 5 5) 1) ∧
    contourCloseCode ringGap5 (zerosMask 5 5) 1
      ≠ contourCloseSpecText ringGap5 (zerosMask 5 5) 1 := by
  constructor
  · decide
  · decide

/-- C5 (amended): when a brush-mode stroke ends, the committed mask is the
result of dilating the working mask by a disk of radius
`max(1, ⌊toolRadius/2⌋)`, hole-filling the dilated stroke, subtracting the
holes already present in the pre-stroke committed mask, OR-ing the
remaining new holes in, and eroding back by the same disk (stored, or
deleted when entirely false); for every `toolRadius ≥ 2` this radius
equals the specification's `⌊toolRadius/2⌋`, so the two pipelines agree
everywhere except at toolRadius 1. -/
theorem C5_contour_close_pipeline :
    (∀ (st : EditorState) (ds : DrawState),
      st.drawing = some ds → st.current_tool_mode = .brush →
      lookup2 (finishDrawing st).roi_masks st.current_roi_name st.current_axial =
        (if anyTrue (contourCloseCode ds.temp ds.prevSnapshot (activeSize st)) then
          some (contourCloseCode ds.temp ds.prevSnapshot (activeSize st))
        else none)) ∧
    (∀ (temp prev : Mask) (size : Nat), 2 ≤ size →
      contourCloseCode temp prev size = contourCloseSpecText temp prev size) := by
  constructor
  · intro st ds hds htool
    obtain ⟨e1, -, -⟩ := finishDrawing_shape st ds hds
    rw [e1, htool]
    rw [if_pos rfl]
    exact lookup2_applyTempMask_self _ _ _ _
  · intro temp prev size hsize
    unfold contourCloseCode contourCloseSpecText
    have : max 1 (size / 2) = size / 2 := Nat.max_eq_right (by omega)
    rw [this]

/-- Witness for C5 (amended): the pipeline applied at the concrete
stroke-end state `stC5`, and pipeline agreement at tool radius 2. -/
theorem C5_contour_close_pipeline_witness :
    lookup2 (finishDrawing stC5).roi_masks "A" 0 =
      (if anyTrue (contourCloseCode ringGap5 (zerosMask 5 5) 1) then
        some (contourCloseCode ringGap5 (zerosMask 5 5) 1)
      else none) ∧
    contourCloseCode [[true]] [[false]] 2 = contourCloseSpecText [[true]] [[false]] 2 :=
  ⟨C5_contour_close_pipeline.1 stC5 {
      temp := ringGap5, undoState := ("A", 0, none),
      prevSnapshot := zerosMask 5 5, lastDrawPos := some (1, 1) } rfl rfl,
   C5_contour_close_pipeline.2 [[true]] [[false]] 2 (by decide)⟩

/-! ## Claim C6 -/

/-- C6 counterexample: the claim's stamp count `max(1, round(d))` is wrong
— the code truncates (`int(dist)`). For the move from (0,0) to (2,2)
(`d = √8 ≈ 2.83 > 1` pixel apart), the engine stamps 2 positions while
`max(1, round(√8)) = 3`. -/
theorem C6_line_stamps_counterexample :
    pixDistSq (0, 0) (2, 2) = 8 ∧
    1 < pixDistSq (0, 0) (2, 2) ∧
    (lineStampCenters (0, 0) (2, 2)).length = 2 ∧
    max 1 (roundSqrt (pixDistSq (0, 0) (2, 2))) = 3 ∧
    (lineStampCenters (0, 0) (2, 2)).length
      ≠ max 1 (roundSqrt (pixDistSq (0, 0) (2, 2))) := by
  refine ⟨by decide, by decide, by decide, by decide, by decide⟩

/-- C6 (amended): an extend step with a previous position rasterizes the
line by stamping the active-radius disk at `max(1, ⌊d⌋)` positions (the
code truncates the distance rather than rounding it), evenly spaced along
the segment between the two points — `np.linspace(0,1,n)` rounded to
pixels — with the single stamp landing on the end point when `⌊d⌋ ≤ 1`. -/
theorem C6_line_stamps :
    (∀ (st : EditorState) (ds : DrawState) (p1 : Nat × Nat) (row col : Int)
        (shift : Bool),
      st.drawing = some ds → ds.lastDrawPos = some p1 →
      0 ≤ row ∧ row < st.height ∧ 0 ≤ col ∧ col < st.width →
      ∃ ds', (continueDrawing st row col shift).drawing = some ds' ∧
        ds'.temp = fastDrawLine ds.temp p1 (row.toNat, col.toNat) (activeSize st)
          (toolModeFor st.operation_mode shift st.current_tool_mode)) ∧
    (∀ (m : Mask) (p1 p2 : Nat × Nat) (size : Nat) (tool : ToolMode),
      fastDrawLine m p1 p2 size tool =
        (lineStampCenters p1 p2).foldl (fun m q => fastDrawAt m q.1 q.2 size tool) m) ∧
    (∀ p1 p2 : Nat × Nat,
      (lineStampCenters p1 p2).length = max 1 (floorSqrt (pixDistSq p1 p2))) ∧
    (∀ p1 p2 : Nat × Nat, 1 < max 1 (floorSqrt (pixDistSq p1 p2)) →
      lineStampCenters p1 p2 =
        (List.range (max 1 (floorSqrt (pixDistSq p1 p2)))).map
          (fun i => lerpRound p1 p2 i (max 1 (floorSqrt (pixDistSq p1 p2))))) ∧
    (∀ p1 p2 : Nat × Nat, max 1 (floorSqrt (pixDistSq p1 p2)) = 1 →
      lineStampCenters p1 p2 = [((p2.1 : Int), (p2.2 : Int))]) := by
  refine ⟨?_, ?_, ?_, ?_, ?_⟩
  · intro st ds p1 row col shift hds hlast hb
    unfold continueDrawing
    rw [hds]
    dsimp only
    rw [if_pos hb, hlast]
    exact ⟨_, rfl, rfl⟩
  · intro m p1 p2 size tool
    rfl
  · intro p1 p2
    unfold lineStampCenters
    dsimp only
    split
    · next hn => rw [List.length_map, List.length_range]
    · next hn =>
        show 1 = _
        omega
  · intro p1 p2 hn
    unfold lineStampCenters
    dsimp only
    rw [if_pos hn]
  · intro p1 p2 hn
    unfold lineStampCenters
    dsimp only
    rw [if_neg (by omega)]

/-- Witness for C6 (amended): the stamp centres for the diagonal move
(0,0) → (2,2) and an in-bounds extend step on a concrete drawing state. -/
theorem C6_line_stamps_witness :
    (lineStampCenters (0, 0) (2, 2)).length
      = max 1 (floorSqrt (pixDistSq (0, 0) (2, 2))) ∧
    lineStampCenters (0, 0) (2, 2) =
      (List.range (max 1 (floorSqrt (pixDistSq (0, 0) (2, 2))))).map
        (fun i => lerpRound (0, 0) (2, 2) i (max 1 (floorSqrt (pixDistSq (0, 0) (2, 2))))) ∧
    ∃ ds', (continueDrawing stC5 2 2 false).drawing = some ds' ∧
      ds'.temp = fastDrawLine ringGap5 (1, 1) (2, 2) (activeSize stC5)
        (toolModeFor stC5.operation_mode false stC5.current_tool_mode) :=
  ⟨C6_line_stamps.2.2.1 (0, 0) (2, 2),
   C6_line_stamps.2.2.2.1 (0, 0) (2, 2) (by decide),
   C6_line_stamps.1 stC5 {
      temp := ringGap5, undoState := ("A", 0, none),
      prevSnapshot := zerosMask 5 5, lastDrawPos := some (1, 1) } (1, 1) 2 2 false
     rfl rfl (by decide)⟩

/-- Witness for C7: the frame facts evaluated at a concrete two-seed
store (seeds at slices 0 and 4). -/
theorem C7_interpolation_endpoints_unchanged_witness :
    alookup (performSmart smW7 0 4).1 0 = alookup smW7 0 ∧
    lookup2 (interpolateAll stC7).1.roi_masks "R" 0 = lookup2 stC7.roi_masks "R" 0 :=
  ⟨C7_interpolation_endpoints_unchanged.1 smW7 0 4 0 (by decide),
   C7_interpolation_endpoints_unchanged.2.2.2 stC7 smW7 0 (by decide) (by decide)⟩

end CQ
